import Mathlib

/-!
# Verification of git-sccsimport against its specification

Shallow embedding of the core of `git-sccsimport.py`: the delta data model,
the fuzzy-commit aggregator (`Delta.SameFuzzyCommit` / `ImportDeltas`), the
fast-import stream generator (`GitImporter`), SID validation
(`SccsFile.GoodRevision`), target-path computation
(`SccsFile.GitFriendlyName` / `SccsFile._GottenName`), and the
timestamp/timezone resolution (`Delta.SetTimestamp` / `GetUserInfo`).

Timestamps are modelled as integers: every timestamp the program computes is
a whole number of seconds (SCCS check-in times have one-second resolution and
all timezone offsets are whole minutes), and the fuzzy window is compared to
differences of such timestamps.  Timezones are modelled as fixed UTC offsets
in seconds.
-/

namespace GitSccsImport

/-- One SCCS delta as stored by `Delta.FetchDeltaProperties`.

* `comment` mirrors the Python `_comment` field: `FetchDeltaProperties` joins
  the `\x01c ` header lines and then normalises a comment equal to `"\n"` to
  Python `None`; we model that value as `none`, and any other string `s`
  (including the empty join `""`) as `some s`.
* `mrs` is the whitespace-split MR list (`mrlist.split()`).
* `sid` is the dotted SID, stored as its list of numeric components (every SID
  that reaches a `Delta` has passed `SccsFile.GoodRevision`, so it has at
  least two components, all positive).
* `timestamp` is the resolved POSIX timestamp (`Delta._timestamp`). -/
structure Delta where
  comment : Option String
  committer : String
  mrs : List String
  timestamp : Int
  sid : List Int
  seqno : Int
deriving DecidableEq, Repr

/-- `Delta.SidLevel`: first dotted component of the SID (`int(sid.split(".")[0])`). -/
def Delta.sidLevel (d : Delta) : Int := d.sid.headD 0

/-- `Delta.SidRev`: second dotted component of the SID (`int(sid.split(".")[1])`). -/
def Delta.sidRev (d : Delta) : Int := (d.sid.drop 1).headD 0

/-- Python's builtin `abs`, written so that it evaluates by kernel
reduction. -/
def pyAbs (x : Int) : Int := if x < 0 then -x else x

theorem pyAbs_eq_abs (x : Int) : pyAbs x = |x| := by
  by_cases h : x < 0
  · simp [pyAbs, h, abs_of_neg h]
  · simp [pyAbs, h, abs_of_nonneg (le_of_not_lt h)]

/-- `Delta.SameFuzzyCommit(self, other)`, with the fuzzy window `fw`
(`FUZZY_WINDOW`) passed explicitly.  Mirrors the Python control flow:
unequal comments, committers or MR lists fail; then the time delta is
compared to the window, and a `self._comment == ""` (the Python empty
string, i.e. `some ""` here) also fails. -/
def sameFuzzyCommit (fw : Int) (self other : Delta) : Bool :=
  if self.comment ≠ other.comment then false
  else if self.committer ≠ other.committer then false
  else if self.mrs ≠ other.mrs then false
  else if pyAbs (other.timestamp - self.timestamp) > fw ∨ self.comment = some "" then false
  else true

/-- Default `FUZZY_WINDOW = 24.0 * 60.0 * 60.0 * 7.0` (one week in seconds). -/
def FUZZY_WINDOW : Int := 24 * 60 * 60 * 7

/-! ## The aggregator: fuzzy grouping of the sorted delta list

`ImportDeltas` walks the (timestamp-sorted) delta list keeping
`first_delta_in_commit`; a delta `d` joins the current commit iff
`first_delta_in_commit.SameFuzzyCommit(d)`, otherwise the commit is closed
and a new one starts at `d`.  `groupGo fw f tl rest` models the walk while a
commit with first delta `f` and later members `tl` (in order) is open. -/

def groupGo (fw : Int) (f : Delta) (tl : List Delta) : List Delta → List (List Delta)
  | [] => [f :: tl]
  | d :: ds =>
    if sameFuzzyCommit fw f d then groupGo fw f (tl ++ [d]) ds
    else (f :: tl) :: groupGo fw d [] ds

/-- The sequence of commit groups produced by the `ImportDeltas` walk on a
delta list. -/
def groupFuzzy (fw : Int) : List Delta → List (List Delta)
  | [] => []
  | d :: ds => groupGo fw d [] ds

/-! ## Sorting (`Import`): `delta_list.sort(key=attrgetter('_timestamp'))`,
a stable sort by timestamp, modelled by insertion sort (stable: an element is
inserted after all strictly-smaller keys and before the first key `≥` it,
and the tail is sorted first, preserving the relative order of equal keys). -/

/-- Comparison used by the sort: key = `_timestamp`. -/
def byTs (a b : Delta) : Prop := a.timestamp ≤ b.timestamp

instance : DecidableRel byTs :=
  fun a b => inferInstanceAs (Decidable (a.timestamp ≤ b.timestamp))

instance : IsTotal Delta byTs := ⟨fun a b => le_total a.timestamp b.timestamp⟩

instance : IsTrans Delta byTs := ⟨fun _ _ _ h1 h2 => le_trans h1 h2⟩

/-- The stable timestamp sort of `Import`. -/
def sortDeltas (l : List Delta) : List Delta := List.insertionSort byTs l

/-- The flat delta list `[delta for sfile in sccsfiles for delta in sfile.deltas]`:
insertion order of the source file list, then position within each file's
delta list. -/
def deltaList (files : List (List Delta)) : List Delta := files.flatMap id

/-! ## The stream emitter (`GitImporter` and `ImportDeltas`)

The emitted fast-import stream is abstracted to a list of records: the
commands a run writes to the sink, in order.  A `commit` record stands for
the `commit`/`mark`/`original-oid`/`committer`/`data`/`from` block written by
`GitImporter.BeginCommit` (it carries the mark it consumed, the optional
`from` mark and the first delta of the commit, from which committer identity,
timestamp and message are formatted); `commitEnd` for the blank line of
`CompleteCommit`; `tag` for the `tag`/`from`/`tagger`/`data` block of
`WriteTag`; `fileDelete`/`fileModify` for the `D`/`M` sections. -/
inductive Rec where
  | commit (mark : Nat) (parent : Option Nat) (delta : Delta)
  | commitEnd
  | tag (label : String) (fromMark : Nat) (tagger : Delta)
  | fileDelete (delta : Delta)
  | fileModify (delta : Delta)
deriving DecidableEq, Repr

/-- Lookup in the `_used_tags` dict (modelled as an association list). -/
def assocFind (used : List (String × Nat)) (k : String) : Option Nat :=
  match used with
  | [] => none
  | (k', v) :: rest => if k' = k then some v else assocFind rest k

/-- Update/insert in the `_used_tags` dict. -/
def assocSet (used : List (String × Nat)) (k : String) (v : Nat) : List (String × Nat) :=
  match used with
  | [] => [(k, v)]
  | (k', v') :: rest => if k' = k then (k, v) :: rest else (k', v') :: assocSet rest k v

/-- The label computation of `GitImporter.WriteTag` together with its update
of `_used_tags`: `relno = pdelta.SidLevel() - 1`, base label `v<relno>`; on
collision the emitted label is `v<SidLevel>.<trev>` where `trev` is the
incremented per-base-label counter. -/
def tagLabel (level : Int) (used : List (String × Nat)) : String × List (String × Nat) :=
  let relno := level - 1
  let tag := "v" ++ toString relno
  match assocFind used tag with
  | some c =>
    let trev := c + 1
    ("v" ++ toString level ++ "." ++ toString trev, assocSet used tag trev)
  | none => (tag, assocSet used tag 0)

/-- The loop state of `ImportDeltas` plus the `GitImporter` state it drives:
`first` is `first_delta_in_commit`, `current` the mark returned by the last
`BeginCommit` (Python leaves it undefined before the first commit; we
initialise it to `0`, and it is only read when `writeTagNext` is set, which
implies at least two commits were emitted), `nextMark` is
`GitImporter._next_mark` and `usedTags` is `GitImporter._used_tags`. -/
structure ImpState where
  first : Option Delta
  plevel : Option Delta
  parent : Option Nat
  pdelta : Option Delta
  writeTagNext : Bool
  current : Nat
  nextMark : Nat
  usedTags : List (String × Nat)
deriving Repr

def initImpState : ImpState :=
  { first := none, plevel := none, parent := none, pdelta := none,
    writeTagNext := false, current := 0, nextMark := 1, usedTags := [] }

/-- The run configuration: `DoTags`, `FUZZY_WINDOW`, and the external
`GetBody` collaborator (only the emptiness of the returned bytes matters for
the record structure; the raw bytes live inside the `M` data section). -/
structure ImpCfg where
  doTags : Bool
  fw : Int
  body : Delta → List Nat

/-- The file section a delta contributes to its commit: `D` when `GetBody`
returns no bytes, otherwise `M ... inline`. -/
def fileRec (cfg : ImpCfg) (d : Delta) : Rec :=
  if cfg.body d = [] then Rec.fileDelete d else Rec.fileModify d

/-- The first `if` block of the `for d in deltas` loop in `ImportDeltas`:
when a commit is open and `d` fails the fuzzy match against its first delta,
close the commit (blank line), write the pending tag if one was scheduled
(referencing `current - 1`, tagged by `plevel`, updating `_used_tags`), and
schedule a tag if the new group's first delta bumps the SID level with
revision 1. -/
def closePhase (cfg : ImpCfg) (st : ImpState) (d : Delta) : List Rec × ImpState :=
  match st.first with
  | none => ([], st)
  | some f =>
    if sameFuzzyCommit cfg.fw f d then ([], st)
    else
      let stA := { st with first := (none : Option Delta) }
      let tagPart : List Rec × ImpState :=
        if cfg.doTags ∧ stA.writeTagNext then
          match stA.plevel with
          | some p =>
            let lu := tagLabel p.sidLevel stA.usedTags
            ([Rec.tag lu.1 (stA.current - 1) p],
             { stA with usedTags := lu.2, writeTagNext := false })
          | none => ([], stA) -- unreachable: writeTagNext is only set when plevel is
        else ([], stA)
      let st3 :=
        match tagPart.2.plevel with
        | some p =>
          if d.sidLevel > p.sidLevel ∧ d.sidRev = 1
          then { tagPart.2 with writeTagNext := true } else tagPart.2
        | none => tagPart.2
      (Rec.commitEnd :: tagPart.1, st3)

/-- The second `if` block of the loop: when no commit is open, begin one at
`d` (`BeginCommit`: consume the next mark, emit the commit header with the
current parent), update `parent`, and set `plevel` to `d` when a previous
delta exists. -/
def beginPhase (st1 : ImpState) (d : Delta) : List Rec × ImpState :=
  match st1.first with
  | none =>
    let mark := st1.nextMark
    ([Rec.commit mark st1.parent d],
     { st1 with first := some d, nextMark := mark + 1, current := mark,
                parent := some mark,
                plevel := if st1.pdelta.isSome then some d else st1.plevel })
  | some _ => ([], st1)

/-- One iteration of the `for d in deltas` loop in `ImportDeltas`
(lines 827-857): close phase, begin phase, `pdelta = d`, then this delta's
file section (`D` on an empty body, else `M ... inline`). -/
def impStep (cfg : ImpCfg) (st : ImpState) (d : Delta) : List Rec × ImpState :=
  let c := closePhase cfg st d
  let b := beginPhase c.2 d
  (c.1 ++ b.1 ++ [fileRec cfg d], { b.2 with pdelta := some d })

/-- The `for d in deltas` loop. -/
def impLoop (cfg : ImpCfg) (st : ImpState) : List Delta → List Rec × ImpState
  | [] => ([], st)
  | d :: ds =>
    let r1 := impStep cfg st d
    let r2 := impLoop cfg r1.2 ds
    (r1.1 ++ r2.1, r2.2)

/-- `ImportDeltas(imp, deltas)`: raise `ImportFailure("No deltas to import")`
on an empty delta list before writing anything to the sink; otherwise run the
loop and close the final commit (`if parent: imp.CompleteCommit()`; marks
start at 1, so `parent` is never the falsy `0`). -/
def importDeltas (cfg : ImpCfg) (deltas : List Delta) : Except String (List Rec) :=
  match deltas with
  | [] => .error "No deltas to import"
  | d :: ds =>
    let r := impLoop cfg initImpState (d :: ds)
    .ok (r.1 ++ if r.2.parent.isSome then [Rec.commitEnd] else [])

/-- The marks declared by `mark :N` lines, in stream order (only commit
records declare marks; `WriteTag` never calls `GetNextMark`). -/
def commitMarks (recs : List Rec) : List Nat :=
  recs.filterMap fun r =>
    match r with
    | Rec.commit m _ _ => some m
    | _ => none

/-- The first deltas of the emitted commits, in stream order. -/
def commitDeltas (recs : List Rec) : List Delta :=
  recs.filterMap fun r =>
    match r with
    | Rec.commit _ _ d => some d
    | _ => none

/-- `refsOK declared recs` checks that every `from :N` line (in commit and
tag records) references a mark declared by an earlier record, accumulating
declared marks left to right. -/
def refsOK (declared : List Nat) : List Rec → Bool
  | [] => true
  | Rec.commit m p _ :: rest =>
    (match p with
     | some q => decide (q ∈ declared)
     | none => true) && refsOK (declared ++ [m]) rest
  | Rec.tag _ fm _ :: rest => decide (fm ∈ declared) && refsOK declared rest
  | _ :: rest => refsOK declared rest

/-- Tag records in the stream. -/
def isTag : Rec → Bool
  | Rec.tag _ _ _ => true
  | _ => false

/-! ## SID validation (`SccsFile.GoodRevision`)

Python's `int(x)` either returns an integer or raises `ValueError`; we model
it as `pyIntL : List Char → Option Int` (`none` = `ValueError`).  `int`
accepts surrounding whitespace and an optional sign before a nonempty digit
string.  Strings are processed as their character lists. -/

/-- Python `s.split(sep)` for a one-character separator: splits at every
occurrence, keeping empty pieces; the empty string yields `[""]`. -/
def pySplit (sep : Char) : List Char → List (List Char)
  | [] => [[]]
  | c :: cs =>
    match pySplit sep cs with
    | [] => [[c]]
    | g :: gs => if c = sep then [] :: g :: gs else (c :: g) :: gs

def pyIntDigits (cs : List Char) : Option Int :=
  if cs = [] ∨ ¬ cs.all (·.isDigit) then none
  else some (cs.foldl (fun acc c => acc * 10 + (Int.ofNat (c.toNat - '0'.toNat))) 0)

/-- Python `int(s)` for a decimal string. -/
def pyIntL (cs : List Char) : Option Int :=
  let t := ((cs.dropWhile (·.isWhitespace)).reverse.dropWhile (·.isWhitespace)).reverse
  match t with
  | '-' :: rest => (pyIntDigits rest).map (fun n => -n)
  | '+' :: rest => pyIntDigits rest
  | _ => pyIntDigits t

/-- The generator `all(int(x) > 0 for x in comps)` with Python's
short-circuiting and exception behaviour: `.error` models the `ValueError`
raised by `int` escaping from `GoodRevision`. -/
def allCompsPositive : List (List Char) → Except Unit Bool
  | [] => .ok true
  | x :: xs =>
    match pyIntL x with
    | none => .error ()
    | some v => if v > 0 then allCompsPositive xs else .ok false

/-- `SccsFile.GoodRevision(sid)`: `comps = sid.split(".")`;
`len(comps) > 1 and all(int(x) > 0 for x in comps)` (the `and` short-circuits,
so `int` never runs when there are fewer than two components).  On the `False`
paths the Python code prints a `NotImporting` diagnostic and the SID is
skipped; a `ValueError` from `int` (`.error` here) propagates out of the
whole filter. -/
def goodRevision (sid : String) : Except Unit Bool :=
  let comps := pySplit '.' sid.toList
  if comps.length > 1 then allCompsPositive comps else .ok false

/-- `filter(self.GoodRevision, revisions)` as consumed by the `Delta` list
comprehension in `SccsFile.__init__`: SIDs for which `GoodRevision` returns
`False` are dropped; a `ValueError` aborts the construction (and hence the
run). -/
def filterRevisions : List String → Except Unit (List String)
  | [] => .ok []
  | s :: ss => do
    let b ← goodRevision s
    let r ← filterRevisions ss
    pure (if b then s :: r else r)

/-! ## Timestamp and timezone resolution (`GetUserInfo`, `Delta.SetTimestamp`)

Timezones are fixed UTC offsets in seconds (`GetTimezone` on a `±HHMM`
string; named zones are abstracted to their offset).  The wall-clock time
parsed from the SCCS `YY/MM/DD HH:MM:SS` fields is abstracted to `civil`, the
naive datetime expressed as seconds since the epoch as if it were UTC; an
aware datetime with offset `z` then denotes the instant `civil - z`, which is
exactly `datetime(..., tzinfo=z).timestamp()`. -/

/-- The result of `GetUserInfo` (class `UserInfo`): login, formatted
`Name <email>` identity, and optional timezone. -/
structure UserInfoM where
  login : String
  email : String
  tz : Option Int
deriving DecidableEq, Repr

/-- `GitUser(username, login_name, mail_domain)`. -/
def gitUser (username login : String) (mailDomain : Option String) : String :=
  match mailDomain with
  | some dom => username ++ " <" ++ login ++ "@" ++ dom ++ ">"
  | none => username ++ " <" ++ login ++ ">"

/-- The non-author-map paths of `GetUserInfo`: the host user database's
GECOS field supplies the display name (or the login itself when the lookup
fails), and — crucially for the timezone logic — the returned `UserInfo.tz`
is the `tz` argument, which the caller passes as `DEFAULT_USER_TZ`.  `pwdb`
models `pwd.getpwnam(login).pw_gecos` (the `username.replace("&", ...)` call
in the source discards its result and is a no-op). -/
def getUserInfoFallback (pwdb : String → Option String) (login : String)
    (mailDomain : Option String) (tz : Option Int) : UserInfoM :=
  match pwdb login with
  | none => ⟨login, gitUser login login mailDomain, tz⟩
  | some gecos =>
    let username := (gecos.splitOn ",").headD ""
    ⟨login, gitUser username login mailDomain, tz⟩

/-- `GetUserInfo(login_name, mail_domain, tz)`: the author-map entry (if the
map is configured and has the login) wins outright; otherwise fall back to
the user database / bare-login identity carrying the `tz` argument
(`DEFAULT_USER_TZ`). -/
def getUserInfo (authorMap : Option (List (String × UserInfoM)))
    (pwdb : String → Option String)
    (login : String) (mailDomain : Option String) (tz : Option Int) : UserInfoM :=
  match authorMap with
  | some am =>
    match am.lookup login with
    | some u => u
    | none => getUserInfoFallback pwdb login mailDomain tz
  | none => getUserInfoFallback pwdb login mailDomain tz

/-- The timezone-relevant configuration: `DEFAULT_USER_TZ` (`--tz`), the host
zone used by `astimezone()` on naive datetimes, and `--move-date`
(`moveDateCivil`, the naive wall-clock value parsed by `strptime`) with
`--move-zone`. -/
structure TzCfg where
  defaultTz : Option Int
  localOff : Int
  moveDateCivil : Option Int
  moveZone : Int

/-- `ParseOptions`' conversion of `MoveDate` to an aware instant: naive
`MoveDate` is `astimezone()`d (host zone) when no `--tz` was given, else
tagged with `DEFAULT_USER_TZ`. -/
def moveInstant (cfg : TzCfg) : Option Int :=
  cfg.moveDateCivil.map fun mc =>
    match cfg.defaultTz with
    | some z => mc - z
    | none => mc - cfg.localOff

/-- `Delta.SetTimestamp`'s timezone resolution, given the already-parsed
wall-clock time `civil` and the `UserInfo.tz` of the delta's committer.
Returns `(timestamp, displayed offset)` = (`self._timestamp`,
`self._tz_offset`).  Mirrors: `tz = self._ui.tz or DEFAULT_USER_TZ`; the
civil time is interpreted in `tz` if set, else in the host zone; then if
`self._ui.tz is None and MoveDate is not None and cdate >= MoveDate` the
civil time is re-interpreted in `MoveZone`. -/
def setTimestamp (uiTz : Option Int) (cfg : TzCfg) (civil : Int) : Int × Int :=
  let tz : Option Int := uiTz <|> cfg.defaultTz
  let off := tz.getD cfg.localOff
  let ts := civil - off
  let move : Bool :=
    decide (uiTz = none) &&
      match moveInstant cfg with
      | some mi => decide (ts ≥ mi)
      | none => false
  if move then (civil - cfg.moveZone, cfg.moveZone) else (ts, off)

/-! ## Target-path computation (`SccsFile._GottenName`, `SccsFile.GitFriendlyName`)

Paths are modelled as character lists; the `os.path` routines used by the
code are embedded from CPython's `posixpath` implementations. -/

/-- `posixpath.isabs(p)`: `p.startswith('/')`. -/
def isabsP (p : List Char) : Bool :=
  match p with
  | [] => false
  | c :: _ => c = '/' 

/-- The `tail` of `posixpath.split(p)`: everything after the last slash. -/
def splitTailP (p : List Char) : List Char :=
  (p.reverse.takeWhile (· ≠ '/')).reverse

/-- The `head` of `posixpath.split(p)`: everything up to and including the
last slash, with trailing slashes stripped unless it is all slashes. -/
def splitHeadP (p : List Char) : List Char :=
  let head0 := p.take (p.length - (splitTailP p).length)
  if head0.all (· = '/') then head0 else (head0.reverse.dropWhile (· = '/')).reverse

/-- `posixpath.split(p)`. -/
def splitPathP (p : List Char) : List Char × List Char :=
  (splitHeadP p, splitTailP p)

/-- `posixpath.join(a, b)` (two arguments, as used by the code). -/
def joinPathP (a b : List Char) : List Char :=
  if isabsP b then b
  else if a = [] ∨ a.getLast? = some '/' then a ++ b
  else a ++ '/' :: b

/-- `posixpath.splitdrive(p)`: POSIX paths have no drive. -/
def splitdriveP (p : List Char) : List Char × List Char := ([], p)

/-- `p.split('/')` as used by `posixpath.normpath`. -/
def splitOnSlash (p : List Char) : List (List Char) := pySplit '/' p

/-- The component loop of `posixpath.normpath`: drop `''` and `'.'`, keep
other components, fold `..` against a previous real component (except leading
`..`s of a relative path, which are kept, and `..` at the root, which is
dropped). -/
def processComps (isAbs : Bool) (acc : List (List Char)) :
    List (List Char) → List (List Char)
  | [] => acc
  | c :: cs =>
    if c = [] ∨ c = ['.'] then processComps isAbs acc cs
    else if c ≠ ['.', '.'] ∨ (¬ isAbs ∧ acc = []) ∨
        (acc ≠ [] ∧ acc.getLast? = some ['.', '.']) then
      processComps isAbs (acc ++ [c]) cs
    else processComps isAbs acc.dropLast cs

/-- `sep.join(comps)` for `sep = '/'` (Python `str.join`). -/
def joinComps : List (List Char) → List Char
  | [] => []
  | [c] => c
  | c :: c' :: cs => c ++ '/' :: joinComps (c' :: cs)

/-- `posixpath.normpath(p)`. -/
def normpathP (p : List Char) : List Char :=
  if p = [] then ['.']
  else
    let initialSlashes : Nat :=
      if isabsP p then
        if p.take 2 = ['/', '/'] ∧ p.take 3 ≠ ['/', '/', '/'] then 2 else 1
      else 0
    let newComps := processComps (initialSlashes > 0) [] (splitOnSlash p)
    let path := List.replicate initialSlashes '/' ++ joinComps newComps
    if path = [] then ['.'] else path

/-- `SccsFile._GottenName()`: strip a leading `s.` from the filename
component; if the immediate parent directory is exactly `SCCS`, remove it;
rejoin. -/
def gottenName (filename : List Char) : List Char :=
  let ht := splitPathP filename
  let tail := if ht.2.take 2 = ['s', '.'] then ht.2.drop 2 else ht.2
  let dh := splitPathP ht.1
  let head := if dh.2 = ['S', 'C', 'C', 'S'] then dh.1 else ht.1
  joinPathP head tail

/-- `SccsFile.GitFriendlyName(name)`: raise `ImportFailure` on absolute
paths, split off the (empty, on POSIX) drive, normalize. -/
def gitFriendlyName (name : List Char) : Except String (List Char) :=
  if isabsP name then .error "absolute path name"
  else .ok (normpathP (splitdriveP name).2)

/-- The full target-path computation `GitFriendlyName(_GottenName())` applied
to a source path. -/
def targetPath (filename : List Char) : Except String (List Char) :=
  gitFriendlyName (gottenName filename)

/-! ## Derived notions and concrete data used by the theorems below -/

/-- The deltas of the `D`/`M` file sections of a stream, in order. -/
def fileOpDeltas (recs : List Rec) : List Delta :=
  recs.filterMap fun r =>
    match r with
    | Rec.fileDelete d => some d
    | Rec.fileModify d => some d
    | _ => none

/-- `n` successive `WriteTag` label computations for the same SID level `L`,
starting from an empty `_used_tags`: the emitted labels and the final
`_used_tags` state. -/
def tagSeq (L : Int) : Nat → List String × List (String × Nat)
  | 0 => ([], [])
  | n + 1 =>
    let r := tagSeq L n
    let s := tagLabel L r.2
    (r.1 ++ [s.1], s.2)

/-- Concrete deltas used as witnesses: four deltas with distinct non-empty
comments (so each is its own fuzzy group), SIDs `1.1`, `1.2`, `2.1`, `2.2`. -/
def dw1 : Delta := ⟨some "one\n", "alice", [], 0, [1, 1], 1⟩

def dw2 : Delta := ⟨some "two\n", "alice", [], 100, [1, 2], 2⟩

def dw3 : Delta := ⟨some "three\n", "alice", [], 200, [2, 1], 3⟩

def dw4 : Delta := ⟨some "four\n", "alice", [], 300, [2, 2], 4⟩

/-- Two deltas that fuzzy-match (same non-empty comment, committer, MRs,
timestamps 60 s apart). -/
def dm1 : Delta := ⟨some "refactor\n", "bob", [], 1000, [1, 1], 1⟩

def dm2 : Delta := ⟨some "refactor\n", "bob", [], 1060, [1, 1], 1⟩

/-- Two deltas with empty comments, identical committer and MRs, 5 s apart. -/
def de1 : Delta := ⟨some "", "carol", ["42"], 0, [1, 1], 1⟩

def de2 : Delta := ⟨some "", "carol", ["42"], 5, [1, 2], 2⟩

/-- The comment normalization of `FetchDeltaProperties`: a raw comment equal
to `"\n"` is replaced by `None`, so the canonical representation of an empty
check-in comment is `None`, not the empty string. -/
def normalizeComment (c : String) : Option String :=
  if c = "\n" then none else some c

/-- Two deltas whose empty comments went through the `"\n"` → `None`
normalization, sharing committer and MR list, 100 s apart. -/
def nc1 : Delta := ⟨none, "carol", ["42"], 0, [1, 1], 1⟩

def nc2 : Delta := ⟨none, "carol", ["42"], 100, [1, 2], 2⟩

/-- A witness configuration: tagging on, fuzzy window 300 s, all bodies
non-empty. -/
def cfgW : ImpCfg := ⟨true, 300, fun _ => [1]⟩

/-- A timezone configuration used as a concrete input: global default zone
UTC (`--tz +0000`), host zone UTC, a move date at civil time 0 and move zone
`+0100` (3600 s). -/
def cfg5 : TzCfg := ⟨some 0, 0, some 0, 3600⟩

/-- The `UserInfo` resolved for a login absent from a configured (empty)
author map, with no user-database entry, under `cfg5`. -/
def ui5 : UserInfoM := getUserInfo (some []) (fun _ => none) "alice" none cfg5.defaultTz

/-- The state invariant maintained between iterations of `ImportDeltas`:
marks issued so far are exactly `1, ..., nextMark - 1`; `parent`, when set,
is the mark of the last emitted commit; while a commit is open its mark is
`current = nextMark - 1`; and a scheduled tag will reference `current - 1`,
which is at least `1` because a tag is only scheduled once at least two
commits exist. -/
def ImpInv (st : ImpState) : Prop :=
  1 ≤ st.nextMark ∧
    (st.parent = none ∨
      (st.parent = some (st.nextMark - 1) ∧ 2 ≤ st.nextMark)) ∧
    (st.first.isSome = true →
      st.parent = some (st.nextMark - 1) ∧ st.current = st.nextMark - 1 ∧
        2 ≤ st.nextMark) ∧
    (st.writeTagNext = true →
      st.current = st.nextMark - 1 ∧ 2 ≤ st.current)

/-! ## Normal forms of `normpath` outputs (used to settle the path claims) -/

/-- A component that `normpath` can keep: nonempty, not `.`, slash-free. -/
def goodComp (c : List Char) : Prop := c ≠ [] ∧ c ≠ ['.'] ∧ '/' ∉ c

/-- Component lists produced by `normpath` on relative paths: all components
good, and every `..` lies in a leading run. -/
def NFComps (cs : List (List Char)) : Prop :=
  (∀ c ∈ cs, goodComp c) ∧ ∃ k rest, cs = List.replicate k ['.', '.'] ++ rest ∧ ['.', '.'] ∉ rest

/-- The shape of `normpath p` for relative `p`: either `.` or the slash-join
of a nonempty normal component list. -/
def NFPath (r : List Char) : Prop :=
  r = ['.'] ∨ ∃ cs, cs ≠ [] ∧ NFComps cs ∧ r = joinComps cs

/-! ## Properties of the fuzzy grouping -/

/-- Unpacking a successful `SameFuzzyCommit` comparison: all three metadata
fields agree, the time delta is within the window, and the first delta's
comment is not the (Python) empty string. -/
theorem sameFuzzyCommit_true {fw : Int} {self other : Delta}
    (h : sameFuzzyCommit fw self other = true) :
    self.comment = other.comment ∧ self.committer = other.committer ∧
      self.mrs = other.mrs ∧ pyAbs (other.timestamp - self.timestamp) ≤ fw ∧
      self.comment ≠ some "" := by
  unfold sameFuzzyCommit at h
  split_ifs at h with h1 h2 h3 h4
  · push_neg at h1 h2 h3
    rcases not_or.mp h4 with ⟨h5, h6⟩
    exact ⟨h1, h2, h3, le_of_not_lt h5, h6⟩

/-- Every group produced by the `ImportDeltas` walk is nonempty, and every
non-first member was accepted by `SameFuzzyCommit` against the group's first
delta. -/
theorem groupGo_shape (fw : Int) (rest : List Delta) :
    ∀ (f : Delta) (tl : List Delta),
      (∀ d ∈ tl, sameFuzzyCommit fw f d = true) →
      ∀ g ∈ groupGo fw f tl rest,
        ∃ h t, g = h :: t ∧ ∀ d ∈ t, sameFuzzyCommit fw h d = true := by
  induction rest with
  | nil =>
    intro f tl htl g hg
    simp only [groupGo, List.mem_singleton] at hg
    exact ⟨f, tl, hg, htl⟩
  | cons d ds ih =>
    intro f tl htl g hg
    rw [groupGo] at hg
    by_cases hfz : sameFuzzyCommit fw f d = true
    · rw [if_pos hfz] at hg
      refine ih f (tl ++ [d]) ?_ g hg
      intro x hx
      rcases List.mem_append.mp hx with h1 | h2
      · exact htl x h1
      · rw [List.mem_singleton.mp h2]; exact hfz
    · rw [if_neg hfz] at hg
      rcases List.mem_cons.mp hg with h1 | h2
      · exact ⟨f, tl, h1, htl⟩
      · exact ih d [] (by simp) g h2

/-- Each group is sorted by timestamp whenever the input list is. -/
theorem groupGo_pairwise (fw : Int) (rest : List Delta) :
    ∀ (f : Delta) (tl : List Delta),
      List.Pairwise byTs (f :: (tl ++ rest)) →
      ∀ g ∈ groupGo fw f tl rest, List.Pairwise byTs g := by
  induction rest with
  | nil =>
    intro f tl hp g hg
    simp only [groupGo, List.mem_singleton] at hg
    subst hg
    simpa using hp
  | cons d ds ih =>
    intro f tl hp g hg
    rw [groupGo] at hg
    by_cases hfz : sameFuzzyCommit fw f d = true
    · rw [if_pos hfz] at hg
      refine ih f (tl ++ [d]) ?_ g hg
      have : tl ++ d :: ds = (tl ++ [d]) ++ ds := by simp
      rwa [this] at hp
    · rw [if_neg hfz] at hg
      rcases List.mem_cons.mp hg with h1 | h2
      · subst h1
        refine hp.sublist ?_
        exact List.Sublist.cons₂ f (List.sublist_append_left tl (d :: ds))
      · refine ih d [] ?_ g h2
        simp only [List.nil_append]
        refine hp.sublist ?_
        exact List.Sublist.cons f (List.sublist_append_right tl (d :: ds))

/-- A delta whose comment is the Python empty *string* is never coalesced:
every group of the fuzzy aggregation containing one is a singleton. -/
theorem empty_string_comment_singleton (fw : Int) (l : List Delta)
    (g : List Delta) (hg : g ∈ groupFuzzy fw l)
    (hempty : ∃ d ∈ g, d.comment = some "") : g.length = 1 := by
  match l with
  | [] => simp [groupFuzzy] at hg
  | d0 :: ds =>
    rw [groupFuzzy] at hg
    obtain ⟨h, t, rfl, ht⟩ := groupGo_shape fw ds d0 [] (by simp) _ hg
    match t with
    | [] => rfl
    | y :: ys =>
      exfalso
      have hy := sameFuzzyCommit_true (ht y (List.mem_cons_self y ys))
      obtain ⟨e, he, hec⟩ := hempty
      rcases List.mem_cons.mp he with rfl | het
      · exact hy.2.2.2.2 hec
      · have he2 := sameFuzzyCommit_true (ht e het)
        exact he2.2.2.2.2 (he2.1.trans hec)

/-- C1 counterexample: the canonical representation of an empty check-in
comment is `None` — `FetchDeltaProperties` normalizes the raw comment `"\n"`
to `None` — while `SameFuzzyCommit`'s break condition compares the comment
against the empty *string* `""`, which `None` never equals.  So two deltas
with empty (`None`) comments, identical committer login and MR list, and
timestamps within the fuzzy window are accepted by `SameFuzzyCommit` and
coalesce into a single commit group, contradicting the claim. -/
theorem none_comment_coalesce_counterexample :
    normalizeComment "\n" = none ∧
    nc1.comment = none ∧ nc2.comment = none ∧
    nc1.committer = nc2.committer ∧ nc1.mrs = nc2.mrs ∧
    pyAbs (nc2.timestamp - nc1.timestamp) ≤ 300 ∧
    sameFuzzyCommit 300 nc1 nc2 = true ∧
    groupFuzzy 300 [nc1, nc2] = [[nc1, nc2]] :=
  ⟨rfl, rfl, rfl, rfl, rfl, by decide, rfl, by decide⟩

/-- C1 as amended: only a comment equal to the Python empty string `""`
breaks coalescing — every fuzzy group containing such a delta is a singleton
— but the canonical empty comment `None` (the reader normalizes a raw `"\n"`
comment to `None`) does not: two `None`-comment deltas with equal committer
and MR list whose timestamps lie within the window are accepted by
`SameFuzzyCommit` and so can coalesce. -/
theorem empty_comment_amended (fw : Int) (l : List Delta) (g : List Delta)
    (self other : Delta) :
    (g ∈ groupFuzzy fw l → (∃ d ∈ g, d.comment = some "") → g.length = 1) ∧
    (self.comment = none → other.comment = none →
      self.committer = other.committer → self.mrs = other.mrs →
      pyAbs (other.timestamp - self.timestamp) ≤ fw →
      sameFuzzyCommit fw self other = true) := by
  constructor
  · intro hg hempty
    exact empty_string_comment_singleton fw l g hg hempty
  · intro h1 h2 h3 h4 h5
    have h6 : ¬ (pyAbs (other.timestamp - self.timestamp) > fw) :=
      not_lt.mpr h5
    unfold sameFuzzyCommit
    rw [h1, h2, h3, h4]
    simp [h6]

/-- Witness for the amended C1 theorem at concrete inputs: the group holding
the empty-string-comment delta `de1` is a singleton, and the two
`None`-comment deltas `nc1`, `nc2` pass `SameFuzzyCommit`. -/
theorem empty_comment_amended_witness :
    [de1].length = 1 ∧ sameFuzzyCommit 300 nc1 nc2 = true :=
  ⟨(empty_comment_amended 300 [de1, de2] [de1] nc1 nc2).1 (by decide)
     ⟨de1, by decide, by decide⟩,
   (empty_comment_amended 300 [de1, de2] [de1] nc1 nc2).2 rfl rfl rfl rfl
     (by decide)⟩

/-- C3: within any commit group produced from the timestamp-sorted delta
list, all members share committer login, comment and (ordered) MR list, and
any two members' timestamps differ by at most the fuzzy window — although
each member was only compared against the group's first delta. -/
theorem group_homogeneous (l : List Delta) (fw : Int) (hfw : 0 ≤ fw) :
    ∀ g ∈ groupFuzzy fw (sortDeltas l), ∀ d1 ∈ g, ∀ d2 ∈ g,
      d1.committer = d2.committer ∧ d1.comment = d2.comment ∧
        d1.mrs = d2.mrs ∧ d1.timestamp - d2.timestamp ≤ fw := by
  intro g hg d1 hd1 d2 hd2
  have hsorted : List.Pairwise byTs (sortDeltas l) :=
    List.sorted_insertionSort byTs l
  match hl : sortDeltas l with
  | [] => rw [hl] at hg; simp [groupFuzzy] at hg
  | d0 :: ds =>
    rw [hl] at hg hsorted
    rw [groupFuzzy] at hg
    obtain ⟨h, t, rfl, ht⟩ := groupGo_shape fw ds d0 [] (by simp) _ hg
    have hpw : List.Pairwise byTs (h :: t) :=
      groupGo_pairwise fw ds d0 [] (by simpa using hsorted) _ hg
    have hhead : ∀ x ∈ t, h.timestamp ≤ x.timestamp := by
      intro x hx
      exact (List.pairwise_cons.mp hpw).1 x hx
    -- every member's metadata equals the head's, and its timestamp is within
    -- `[h.timestamp - fw, h.timestamp + fw]`
    have key : ∀ x ∈ h :: t, h.committer = x.committer ∧ h.comment = x.comment ∧
        h.mrs = x.mrs ∧ x.timestamp - h.timestamp ≤ fw ∧
        h.timestamp - x.timestamp ≤ fw := by
      intro x hx
      rcases List.mem_cons.mp hx with rfl | hxt
      · exact ⟨rfl, rfl, rfl, by linarith, by linarith⟩
      · obtain ⟨hc, hcm, hm, hts, _⟩ := sameFuzzyCommit_true (ht x hxt)
        rw [pyAbs_eq_abs] at hts
        have := abs_le.mp hts
        exact ⟨hcm, hc, hm, by linarith [this.2], by linarith [this.1]⟩
    obtain ⟨k1c, k1cm, k1m, k1u, k1l⟩ := key d1 hd1
    obtain ⟨k2c, k2cm, k2m, k2u, k2l⟩ := key d2 hd2
    refine ⟨k1c ▸ k2c, k1cm ▸ k2cm, k1m ▸ k2m, ?_⟩
    rcases List.mem_cons.mp hd2 with rfl | hd2t
    · linarith
    · have := hhead d2 hd2t
      linarith

/-- Witness for C3 at a concrete input: the two fuzzy-matching deltas `dm1`,
`dm2` form one group under window 300, and their timestamps differ by at
most 300. -/
theorem group_homogeneous_witness :
    (0 : Int) ≤ 300 ∧
      (dm1.committer = dm2.committer ∧ dm1.comment = dm2.comment ∧
        dm1.mrs = dm2.mrs ∧ dm1.timestamp - dm2.timestamp ≤ 300) :=
  ⟨by decide,
   group_homogeneous [dm2, dm1] 300 (by decide) [dm1, dm2] (by decide)
     dm1 (by decide) dm2 (by decide)⟩

/-! ## Stability and order of the emitted stream (C4) -/

/-- Inserting `a` into `l` by timestamp key commutes with filtering for a
fixed timestamp `t`: the elements skipped before the insertion point all have
keys strictly below `a`'s. -/
theorem filter_orderedInsert (t : Int) (a : Delta) (l : List Delta) :
    (List.orderedInsert byTs a l).filter (fun d => decide (d.timestamp = t)) =
      if a.timestamp = t then
        a :: l.filter (fun d => decide (d.timestamp = t))
      else l.filter (fun d => decide (d.timestamp = t)) := by
  induction l with
  | nil =>
    by_cases hat : a.timestamp = t <;> simp [List.orderedInsert, hat]
  | cons b l ih =>
    rw [List.orderedInsert]
    by_cases hab : byTs a b
    · rw [if_pos hab]
      by_cases hat : a.timestamp = t <;>
        simp [List.filter_cons, hat]
    · rw [if_neg hab]
      have hba : b.timestamp < a.timestamp := lt_of_not_le hab
      by_cases hat : a.timestamp = t
      · have hbt : ¬ b.timestamp = t := by
          intro hbt
          rw [hbt, hat] at hba
          exact lt_irrefl t hba
        simp [List.filter_cons, hbt, hat, ih]
      · by_cases hbt : b.timestamp = t <;>
          simp [List.filter_cons, hbt, hat, ih]

/-- The stable sort commutes with filtering for a fixed timestamp: deltas
with equal timestamps keep their original relative order. -/
theorem filter_sortDeltas (t : Int) (l : List Delta) :
    (sortDeltas l).filter (fun d => decide (d.timestamp = t)) =
      l.filter (fun d => decide (d.timestamp = t)) := by
  induction l with
  | nil => rfl
  | cons a l ih =>
    show (List.orderedInsert byTs a (List.insertionSort byTs l)).filter _ = _
    rw [filter_orderedInsert]
    unfold sortDeltas at ih
    by_cases hat : a.timestamp = t <;>
      simp [List.filter_cons, hat, ih]

/-- The close phase emits no commit records and no file sections. -/
theorem closePhase_no_commit (cfg : ImpCfg) (st : ImpState) (d : Delta) :
    commitDeltas (closePhase cfg st d).1 = [] ∧
      fileOpDeltas (closePhase cfg st d).1 = [] := by
  unfold closePhase
  cases st.first with
  | none => simp [commitDeltas, fileOpDeltas]
  | some f =>
    by_cases hfz : sameFuzzyCommit cfg.fw f d = true
    · simp [hfz, commitDeltas, fileOpDeltas]
    · simp only [hfz]
      by_cases htag : cfg.doTags ∧ st.writeTagNext
      · simp only [if_pos htag]
        cases st.plevel <;>
          simp [commitDeltas, fileOpDeltas]
      · simp only [if_neg htag]
        cases st.plevel <;>
          simp [commitDeltas, fileOpDeltas]

/-- The begin phase emits either nothing or exactly one commit record for
`d`, and no file sections. -/
theorem beginPhase_recs (st1 : ImpState) (d : Delta) :
    ((beginPhase st1 d).1 = [] ∨
      (beginPhase st1 d).1 = [Rec.commit st1.nextMark st1.parent d]) ∧
      fileOpDeltas (beginPhase st1 d).1 = [] := by
  unfold beginPhase
  cases st1.first <;> simp [fileOpDeltas]

/-- `commitDeltas` and `fileOpDeltas` distribute over concatenation. -/
theorem commitDeltas_append (xs ys : List Rec) :
    commitDeltas (xs ++ ys) = commitDeltas xs ++ commitDeltas ys := by
  simp [commitDeltas, List.filterMap_append]

theorem fileOpDeltas_append (xs ys : List Rec) :
    fileOpDeltas (xs ++ ys) = fileOpDeltas xs ++ fileOpDeltas ys := by
  simp [fileOpDeltas, List.filterMap_append]

/-- The commits a loop run emits start at deltas taken from the remaining
input, in order: the commit-delta sequence is a sublist of the input. -/
theorem commitDeltas_impLoop (cfg : ImpCfg) (ds : List Delta) :
    ∀ st, List.Sublist (commitDeltas (impLoop cfg st ds).1) ds := by
  induction ds with
  | nil => intro st; simp [impLoop, commitDeltas]
  | cons d ds ih =>
    intro st
    rw [impLoop]
    simp only [commitDeltas_append]
    have hstep : commitDeltas (impStep cfg st d).1 = [] ∨
        commitDeltas (impStep cfg st d).1 = [d] := by
      unfold impStep
      simp only [commitDeltas_append]
      rw [(closePhase_no_commit cfg st d).1]
      have hfile : commitDeltas [fileRec cfg d] = [] := by
        unfold fileRec
        split <;> rfl
      rcases (beginPhase_recs (closePhase cfg st d).2 d).1 with h | h
      · left
        rw [h, hfile]
        rfl
      · right
        rw [h, hfile]
        rfl
    rcases hstep with h | h <;> rw [h]
    · exact (ih _).cons d
    · exact (ih _).cons₂ d

/-- Every delta contributes exactly one file section, in input order. -/
theorem fileOpDeltas_impLoop (cfg : ImpCfg) (ds : List Delta) :
    ∀ st, fileOpDeltas (impLoop cfg st ds).1 = ds := by
  induction ds with
  | nil => intro st; simp [impLoop, fileOpDeltas]
  | cons d ds ih =>
    intro st
    rw [impLoop]
    simp only [fileOpDeltas_append]
    have hstep : fileOpDeltas (impStep cfg st d).1 = [d] := by
      unfold impStep
      simp only [fileOpDeltas_append]
      rw [(closePhase_no_commit cfg st d).2,
          (beginPhase_recs (closePhase cfg st d).2 d).2]
      simp [fileOpDeltas, fileRec]
      split <;> simp
    rw [hstep, ih]
    rfl

/-- C4: commits are emitted in nondecreasing timestamp order (a commit's
timestamp is its first delta's), the file sections enumerate exactly the
sorted delta list, and the sort is stable: restricted to any fixed timestamp
`t`, the sorted delta list equals the concatenated per-file delta list
(insertion order of the source file list, then position within each file's
delta list). -/
theorem commits_sorted_and_stable (cfg : ImpCfg) (files : List (List Delta))
    (t : Int) (recs : List Rec)
    (h : importDeltas cfg (sortDeltas (deltaList files)) = .ok recs) :
    List.Pairwise (fun c1 c2 => c1.timestamp ≤ c2.timestamp)
        (commitDeltas recs) ∧
      fileOpDeltas recs = sortDeltas (deltaList files) ∧
      (sortDeltas (deltaList files)).filter (fun d => decide (d.timestamp = t)) =
        (deltaList files).filter (fun d => decide (d.timestamp = t)) := by
  have hsorted : List.Pairwise byTs (sortDeltas (deltaList files)) :=
    List.sorted_insertionSort byTs (deltaList files)
  match hl : sortDeltas (deltaList files) with
  | [] =>
    rw [hl] at h
    exact absurd h (by simp [importDeltas])
  | d :: ds =>
    rw [hl] at h hsorted
    rw [importDeltas] at h
    have hrecs : recs = (impLoop cfg initImpState (d :: ds)).1 ++
        (if (impLoop cfg initImpState (d :: ds)).2.parent.isSome
         then [Rec.commitEnd] else []) := by
      cases h; rfl
    subst hrecs
    constructor
    · have hsub : List.Sublist
          (commitDeltas ((impLoop cfg initImpState (d :: ds)).1 ++
            (if (impLoop cfg initImpState (d :: ds)).2.parent.isSome
             then [Rec.commitEnd] else []))) (d :: ds) := by
        rw [commitDeltas_append]
        have : commitDeltas
            (if (impLoop cfg initImpState (d :: ds)).2.parent.isSome
             then [Rec.commitEnd] else []) = [] := by
          split <;> simp [commitDeltas]
        rw [this, List.append_nil]
        exact commitDeltas_impLoop cfg (d :: ds) initImpState
      exact hsorted.sublist hsub
    constructor
    · rw [fileOpDeltas_append, fileOpDeltas_impLoop]
      have : fileOpDeltas
          (if (impLoop cfg initImpState (d :: ds)).2.parent.isSome
           then [Rec.commitEnd] else []) = [] := by
        split <;> simp [fileOpDeltas]
      rw [this, List.append_nil]
    · rw [← hl]
      exact filter_sortDeltas t (deltaList files)

/-- Witness for C4 at a concrete run over two one-delta files. -/
theorem commits_sorted_and_stable_witness :
    importDeltas cfgW (sortDeltas (deltaList [[dw2], [dw1]])) =
        .ok [Rec.commit 1 none dw1, Rec.fileModify dw1, Rec.commitEnd,
             Rec.commit 2 (some 1) dw2, Rec.fileModify dw2, Rec.commitEnd] ∧
      List.Pairwise (fun c1 c2 => c1.timestamp ≤ c2.timestamp)
        (commitDeltas [Rec.commit 1 none dw1, Rec.fileModify dw1, Rec.commitEnd,
             Rec.commit 2 (some 1) dw2, Rec.fileModify dw2, Rec.commitEnd]) :=
  ⟨by rfl,
   (commits_sorted_and_stable cfgW [[dw2], [dw1]] 0 _ (by rfl)).1⟩

/-- C10: an empty delta list makes `ImportDeltas` raise
`ImportFailure("No deltas to import")` before anything is written to the
sink: the result carries no records at all, for every configuration. -/
theorem empty_deltas_abort (cfg : ImpCfg) :
    importDeltas cfg [] = .error "No deltas to import" := rfl

/-! ## Mark discipline of the emitted stream (C8) -/

theorem commitMarks_append (xs ys : List Rec) :
    commitMarks (xs ++ ys) = commitMarks xs ++ commitMarks ys := by
  simp [commitMarks, List.filterMap_append]

theorem commitMarks_fileRec (cfg : ImpCfg) (d : Delta) :
    commitMarks [fileRec cfg d] = [] := by
  unfold fileRec
  split <;> rfl

theorem refsOK_fileRec (decl : List Nat) (cfg : ImpCfg) (d : Delta) :
    refsOK decl [fileRec cfg d] = true := by
  unfold fileRec
  split <;> rfl

/-- `refsOK` splits over concatenation, threading the declared marks. -/
theorem refsOK_append (xs : List Rec) :
    ∀ (decl : List Nat) (ys : List Rec),
      refsOK decl (xs ++ ys) =
        (refsOK decl xs && refsOK (decl ++ commitMarks xs) ys) := by
  induction xs with
  | nil => intro decl ys; simp [refsOK, commitMarks]
  | cons x xs ih =>
    intro decl ys
    match x with
    | Rec.commit m p dl =>
      have h3 : decl ++ commitMarks (Rec.commit m p dl :: xs) =
          (decl ++ [m]) ++ commitMarks xs := by
        simp [commitMarks, List.filterMap_cons]
      cases p with
      | none =>
        have h1 : refsOK decl (Rec.commit m none dl :: (xs ++ ys)) =
            (true && refsOK (decl ++ [m]) (xs ++ ys)) := rfl
        have h2 : refsOK decl (Rec.commit m none dl :: xs) =
            (true && refsOK (decl ++ [m]) xs) := rfl
        rw [List.cons_append, h1, h2, ih (decl ++ [m]) ys, h3, Bool.and_assoc]
      | some q =>
        have h1 : refsOK decl (Rec.commit m (some q) dl :: (xs ++ ys)) =
            (decide (q ∈ decl) && refsOK (decl ++ [m]) (xs ++ ys)) := rfl
        have h2 : refsOK decl (Rec.commit m (some q) dl :: xs) =
            (decide (q ∈ decl) && refsOK (decl ++ [m]) xs) := rfl
        rw [List.cons_append, h1, h2, ih (decl ++ [m]) ys, h3, Bool.and_assoc]
    | Rec.commitEnd =>
      show refsOK decl (xs ++ ys) = (refsOK decl xs && _)
      rw [ih]
      rfl
    | Rec.tag lab fm dl =>
      show refsOK decl (Rec.tag lab fm dl :: (xs ++ ys)) = _
      rw [refsOK, refsOK, ih, Bool.and_assoc]
      rfl
    | Rec.fileDelete dl =>
      show refsOK decl (xs ++ ys) = (refsOK decl xs && _)
      rw [ih]
      rfl
    | Rec.fileModify dl =>
      show refsOK decl (xs ++ ys) = (refsOK decl xs && _)
      rw [ih]
      rfl

/-- Exhaustive description of the close phase: either it does nothing, or it
emits the closing blank line plus (when a tag was pending) one tag record
referencing `current - 1`, and resets `first` while leaving the mark state,
`parent`, `current` and `pdelta` untouched. -/
theorem closePhase_cases (cfg : ImpCfg) (st : ImpState) (d : Delta) :
    closePhase cfg st d = ([], st) ∨
    (∃ f, st.first = some f ∧ sameFuzzyCommit cfg.fw f d = false ∧
      ∃ tr, (closePhase cfg st d).1 = Rec.commitEnd :: tr ∧
        (tr = [] ∨ (st.writeTagNext = true ∧
          ∃ lab p, tr = [Rec.tag lab (st.current - 1) p])) ∧
        (closePhase cfg st d).2.first = none ∧
        (closePhase cfg st d).2.nextMark = st.nextMark ∧
        (closePhase cfg st d).2.parent = st.parent ∧
        (closePhase cfg st d).2.current = st.current ∧
        (closePhase cfg st d).2.pdelta = st.pdelta) := by
  obtain ⟨fi, pl, pa, pd, wt, cu, nm, ut⟩ := st
  cases fi with
  | none => left; rfl
  | some f =>
    by_cases hfz : sameFuzzyCommit cfg.fw f d = true
    · left
      unfold closePhase
      simp [hfz]
    · right
      refine ⟨f, rfl, eq_false_of_ne_true hfz, ?_⟩
      by_cases htag : cfg.doTags = true ∧ wt = true
      · cases pl with
        | some p =>
          by_cases htrig : d.sidLevel > p.sidLevel ∧ d.sidRev = 1
          · have hval : closePhase cfg ⟨some f, some p, pa, pd, wt, cu, nm, ut⟩ d =
                ([Rec.commitEnd, Rec.tag (tagLabel p.sidLevel ut).1 (cu - 1) p],
                 ⟨none, some p, pa, pd, true, cu, nm, (tagLabel p.sidLevel ut).2⟩) := by
              unfold closePhase
              simp [hfz, htag, htrig]
            rw [hval]
            exact ⟨[Rec.tag (tagLabel p.sidLevel ut).1 (cu - 1) p], rfl,
              Or.inr ⟨htag.2, (tagLabel p.sidLevel ut).1, p, rfl⟩,
              rfl, rfl, rfl, rfl, rfl⟩
          · have hval : closePhase cfg ⟨some f, some p, pa, pd, wt, cu, nm, ut⟩ d =
                ([Rec.commitEnd, Rec.tag (tagLabel p.sidLevel ut).1 (cu - 1) p],
                 ⟨none, some p, pa, pd, false, cu, nm, (tagLabel p.sidLevel ut).2⟩) := by
              unfold closePhase
              simp [hfz, htag, htrig]
            rw [hval]
            exact ⟨[Rec.tag (tagLabel p.sidLevel ut).1 (cu - 1) p], rfl,
              Or.inr ⟨htag.2, (tagLabel p.sidLevel ut).1, p, rfl⟩,
              rfl, rfl, rfl, rfl, rfl⟩
        | none =>
          have hval : closePhase cfg ⟨some f, none, pa, pd, wt, cu, nm, ut⟩ d =
              ([Rec.commitEnd], ⟨none, none, pa, pd, wt, cu, nm, ut⟩) := by
            unfold closePhase
            simp [hfz, htag]
          rw [hval]
          exact ⟨[], rfl, Or.inl rfl, rfl, rfl, rfl, rfl, rfl⟩
      · cases pl with
        | some p =>
          by_cases htrig : d.sidLevel > p.sidLevel ∧ d.sidRev = 1
          · have hval : closePhase cfg ⟨some f, some p, pa, pd, wt, cu, nm, ut⟩ d =
                ([Rec.commitEnd], ⟨none, some p, pa, pd, true, cu, nm, ut⟩) := by
              unfold closePhase
              simp [hfz, htag, htrig]
            rw [hval]
            exact ⟨[], rfl, Or.inl rfl, rfl, rfl, rfl, rfl, rfl⟩
          · have hval : closePhase cfg ⟨some f, some p, pa, pd, wt, cu, nm, ut⟩ d =
                ([Rec.commitEnd], ⟨none, some p, pa, pd, wt, cu, nm, ut⟩) := by
              unfold closePhase
              simp [hfz, htag, htrig]
            rw [hval]
            exact ⟨[], rfl, Or.inl rfl, rfl, rfl, rfl, rfl, rfl⟩
        | none =>
          have hval : closePhase cfg ⟨some f, none, pa, pd, wt, cu, nm, ut⟩ d =
              ([Rec.commitEnd], ⟨none, none, pa, pd, wt, cu, nm, ut⟩) := by
            unfold closePhase
            simp [hfz, htag]
          rw [hval]
          exact ⟨[], rfl, Or.inl rfl, rfl, rfl, rfl, rfl, rfl⟩

/-- Exhaustive description of the begin phase. -/
theorem beginPhase_cases (st1 : ImpState) (d : Delta) :
    (∃ f, st1.first = some f ∧ beginPhase st1 d = ([], st1)) ∨
    (st1.first = none ∧
      beginPhase st1 d = ([Rec.commit st1.nextMark st1.parent d],
        { st1 with first := some d, nextMark := st1.nextMark + 1,
                   current := st1.nextMark, parent := some st1.nextMark,
                   plevel := if st1.pdelta.isSome then some d
                             else st1.plevel })) := by
  unfold beginPhase
  cases h : st1.first with
  | none => right; exact ⟨rfl, rfl⟩
  | some f => left; exact ⟨f, rfl, rfl⟩

/-- One loop iteration preserves the mark invariant: the records it emits
declare exactly the marks `st.nextMark, ...` consumed during the step (zero
or one), and reference only previously declared marks. -/
theorem impStep_spec (cfg : ImpCfg) (st : ImpState) (d : Delta)
    (hinv : ImpInv st) :
    commitMarks (impStep cfg st d).1 =
      List.range' st.nextMark ((impStep cfg st d).2.nextMark - st.nextMark) ∧
    refsOK (List.range' 1 (st.nextMark - 1)) (impStep cfg st d).1 = true ∧
    ImpInv (impStep cfg st d).2 ∧
    st.nextMark ≤ (impStep cfg st d).2.nextMark := by
  obtain ⟨hnm1, hpar, hfirst, hwtn⟩ := hinv
  have hparmem : ∀ q, st.parent = some q → q ∈ List.range' 1 (st.nextMark - 1) := by
    intro q hq
    rcases hpar with h | ⟨h, h2⟩
    · rw [hq] at h; cases h
    · rw [hq] at h
      cases h
      rw [List.mem_range'_1]
      omega
  rcases closePhase_cases cfg st d with hc |
      ⟨f, hf, hfz, tr, htr, htr2, hcfirst, hcnm, hcpar, hccur, hcpd⟩
  · -- close phase did nothing
    have hc1 : (closePhase cfg st d).1 = [] := by rw [hc]
    have hc2 : (closePhase cfg st d).2 = st := by rw [hc]
    rcases beginPhase_cases (closePhase cfg st d).2 d with ⟨g, hg, hb⟩ | ⟨hg, hb⟩
    · -- a commit is open and `d` joined it: only a file section is emitted
      rw [hc2] at hb
      have h1 : (impStep cfg st d).1 = [fileRec cfg d] := by
        show (closePhase cfg st d).1 ++
            (beginPhase (closePhase cfg st d).2 d).1 ++ [fileRec cfg d] = _
        rw [hc1, hc2, hb]
        rfl
      have h2 : (impStep cfg st d).2 = { st with pdelta := some d } := by
        show { (beginPhase (closePhase cfg st d).2 d).2 with pdelta := some d } = _
        rw [hc2, hb]
      have h2nm : (impStep cfg st d).2.nextMark = st.nextMark := by rw [h2]
      refine ⟨?_, ?_, ?_, ?_⟩
      · rw [h1, h2nm, commitMarks_fileRec, Nat.sub_self, List.range'_zero]
      · rw [h1]
        exact refsOK_fileRec _ cfg d
      · rw [h2]
        exact ⟨hnm1, hpar, hfirst, hwtn⟩
      · rw [h2nm]
    · -- no commit open: begin one
      rw [hc2] at hb hg
      have h1 : (impStep cfg st d).1 =
          [Rec.commit st.nextMark st.parent d, fileRec cfg d] := by
        show (closePhase cfg st d).1 ++
            (beginPhase (closePhase cfg st d).2 d).1 ++ [fileRec cfg d] = _
        rw [hc1, hc2, hb]
        rfl
      have h2 : (impStep cfg st d).2 =
          { st with pdelta := some d, first := some d,
                    nextMark := st.nextMark + 1, current := st.nextMark,
                    parent := some st.nextMark,
                    plevel := if st.pdelta.isSome then some d
                              else st.plevel } := by
        show { (beginPhase (closePhase cfg st d).2 d).2 with pdelta := some d } = _
        rw [hc2, hb]
      have h2nm : (impStep cfg st d).2.nextMark = st.nextMark + 1 := by rw [h2]
      have h2cur : (impStep cfg st d).2.current = st.nextMark := by rw [h2]
      have h2par : (impStep cfg st d).2.parent = some st.nextMark := by rw [h2]
      have h2wtn : (impStep cfg st d).2.writeTagNext = st.writeTagNext := by
        rw [h2]
      refine ⟨?_, ?_, ?_, ?_⟩
      · rw [h1, h2nm]
        have hm : commitMarks [Rec.commit st.nextMark st.parent d,
            fileRec cfg d] = st.nextMark :: commitMarks [fileRec cfg d] := rfl
        rw [hm, commitMarks_fileRec, Nat.add_sub_cancel_left, List.range'_one]
      · rw [h1]
        cases hp : st.parent with
        | none =>
          show (true && refsOK (List.range' 1 (st.nextMark - 1) ++ [st.nextMark])
            [fileRec cfg d]) = true
          rw [refsOK_fileRec]
          rfl
        | some q =>
          show (decide (q ∈ List.range' 1 (st.nextMark - 1)) &&
            refsOK (List.range' 1 (st.nextMark - 1) ++ [st.nextMark])
              [fileRec cfg d]) = true
          rw [refsOK_fileRec, decide_eq_true (hparmem q hp)]
          rfl
      · refine ⟨?_, Or.inr ⟨?_, ?_⟩, ?_, ?_⟩
        · rw [h2nm]
          omega
        · rw [h2par, h2nm, Nat.add_sub_cancel]
        · rw [h2nm]
          omega
        · intro _
          refine ⟨?_, ?_, ?_⟩
          · rw [h2par, h2nm, Nat.add_sub_cancel]
          · rw [h2cur, h2nm, Nat.add_sub_cancel]
          · rw [h2nm]
            omega
        · intro hw
          rw [h2wtn] at hw
          obtain ⟨ha, hb2⟩ := hwtn hw
          refine ⟨?_, ?_⟩
          · rw [h2cur, h2nm, Nat.add_sub_cancel]
          · rw [h2cur]
            omega
      · rw [h2nm]
        omega
  · -- close phase closed the commit (and possibly wrote a tag)
    rcases beginPhase_cases (closePhase cfg st d).2 d with ⟨g, hg, hb⟩ | ⟨hg, hb⟩
    · rw [hcfirst] at hg; cases hg
    · have hfs : st.first.isSome = true := by rw [hf]; rfl
      obtain ⟨hfpar, hfcur, hfnm⟩ := hfirst hfs
      have h1 : (impStep cfg st d).1 = (Rec.commitEnd :: tr) ++
          [Rec.commit st.nextMark st.parent d, fileRec cfg d] := by
        show (closePhase cfg st d).1 ++
            (beginPhase (closePhase cfg st d).2 d).1 ++ [fileRec cfg d] = _
        rw [htr, hb, hcnm, hcpar]
        simp
      have h2nm : (impStep cfg st d).2.nextMark = st.nextMark + 1 := by
        show ({ (beginPhase (closePhase cfg st d).2 d).2 with
          pdelta := some d }).nextMark = _
        rw [hb]
        show (closePhase cfg st d).2.nextMark + 1 = _
        rw [hcnm]
      have h2cur : (impStep cfg st d).2.current = st.nextMark := by
        show ({ (beginPhase (closePhase cfg st d).2 d).2 with
          pdelta := some d }).current = _
        rw [hb]
        show (closePhase cfg st d).2.nextMark = _
        rw [hcnm]
      have h2par : (impStep cfg st d).2.parent = some st.nextMark := by
        show ({ (beginPhase (closePhase cfg st d).2 d).2 with
          pdelta := some d }).parent = _
        rw [hb]
        show some (closePhase cfg st d).2.nextMark = _
        rw [hcnm]
      have hmtr : commitMarks (Rec.commitEnd :: tr) = [] := by
        rcases htr2 with h | ⟨_, lab, p, h⟩ <;> rw [h] <;> rfl
      refine ⟨?_, ?_, ?_, ?_⟩
      · rw [h1, h2nm, commitMarks_append, hmtr]
        have hm : commitMarks [Rec.commit st.nextMark st.parent d,
            fileRec cfg d] = st.nextMark :: commitMarks [fileRec cfg d] := rfl
        rw [hm, commitMarks_fileRec, Nat.add_sub_cancel_left, List.range'_one]
        rfl
      · rw [h1, refsOK_append, hmtr, List.append_nil]
        have hca : refsOK (List.range' 1 (st.nextMark - 1))
            (Rec.commitEnd :: tr) = true := by
          rcases htr2 with h | ⟨hw, lab, p, h⟩
          · rw [h]; rfl
          · rw [h]
            show refsOK (List.range' 1 (st.nextMark - 1))
              [Rec.tag lab (st.current - 1) p] = true
            obtain ⟨hc1, hc2⟩ := hwtn hw
            have hmem : st.current - 1 ∈ List.range' 1 (st.nextMark - 1) := by
              rw [List.mem_range'_1]
              omega
            show (decide (st.current - 1 ∈ List.range' 1 (st.nextMark - 1)) &&
              refsOK (List.range' 1 (st.nextMark - 1)) []) = true
            rw [decide_eq_true hmem]
            rfl
        rw [hca]
        have hcommit : refsOK (List.range' 1 (st.nextMark - 1))
            [Rec.commit st.nextMark st.parent d, fileRec cfg d] = true := by
          cases hp : st.parent with
          | none =>
            show (true && refsOK (List.range' 1 (st.nextMark - 1) ++ [st.nextMark])
              [fileRec cfg d]) = true
            rw [refsOK_fileRec]
            rfl
          | some q =>
            show (decide (q ∈ List.range' 1 (st.nextMark - 1)) &&
              refsOK (List.range' 1 (st.nextMark - 1) ++ [st.nextMark])
                [fileRec cfg d]) = true
            rw [refsOK_fileRec, decide_eq_true (hparmem q hp)]
            rfl
        rw [hcommit]
        rfl
      · refine ⟨?_, ?_, ?_, ?_⟩
        · rw [h2nm]
          omega
        · right
          constructor
          · rw [h2par, h2nm, Nat.add_sub_cancel]
          · rw [h2nm]
            omega
        · intro _
          refine ⟨?_, ?_, ?_⟩
          · rw [h2par, h2nm, Nat.add_sub_cancel]
          · rw [h2cur, h2nm, Nat.add_sub_cancel]
          · rw [h2nm]
            omega
        · intro _
          constructor
          · rw [h2cur, h2nm, Nat.add_sub_cancel]
          · rw [h2cur]
            omega
      · rw [h2nm]
        omega

theorem range'_sub_append (a b c : Nat) (hab : a ≤ b) (hbc : b ≤ c) :
    List.range' a (b - a) ++ List.range' b (c - b) = List.range' a (c - a) := by
  obtain ⟨k, rfl⟩ : ∃ k, b = a + k := ⟨b - a, by omega⟩
  obtain ⟨m, rfl⟩ : ∃ m, c = a + k + m := ⟨c - (a + k), by omega⟩
  simp only [Nat.add_sub_cancel_left]
  rw [show a + k + m - a = m + k by omega]
  exact List.range'_append_1 a k m

/-- The whole loop maintains the invariant: starting from a valid state it
declares exactly the marks `st.nextMark, ..., final.nextMark - 1`, in order,
and references only marks declared before. -/
theorem impLoop_spec (cfg : ImpCfg) (ds : List Delta) :
    ∀ st, ImpInv st →
      commitMarks (impLoop cfg st ds).1 =
        List.range' st.nextMark ((impLoop cfg st ds).2.nextMark - st.nextMark) ∧
      refsOK (List.range' 1 (st.nextMark - 1)) (impLoop cfg st ds).1 = true ∧
      ImpInv (impLoop cfg st ds).2 ∧
      st.nextMark ≤ (impLoop cfg st ds).2.nextMark := by
  induction ds with
  | nil =>
    intro st hinv
    refine ⟨?_, rfl, hinv, le_refl _⟩
    show commitMarks [] = List.range' st.nextMark (st.nextMark - st.nextMark)
    rw [Nat.sub_self, List.range'_zero]
    rfl
  | cons d ds ih =>
    intro st hinv
    have hnm1 : 1 ≤ st.nextMark := hinv.1
    obtain ⟨hm1, hr1, hi1, hle1⟩ := impStep_spec cfg st d hinv
    obtain ⟨hm2, hr2, hi2, hle2⟩ := ih (impStep cfg st d).2 hi1
    have hl1 : (impLoop cfg st (d :: ds)).1 =
        (impStep cfg st d).1 ++ (impLoop cfg (impStep cfg st d).2 ds).1 := rfl
    have hl2 : (impLoop cfg st (d :: ds)).2 =
        (impLoop cfg (impStep cfg st d).2 ds).2 := rfl
    refine ⟨?_, ?_, ?_, ?_⟩
    · rw [hl1, hl2, commitMarks_append, hm1, hm2]
      exact range'_sub_append st.nextMark (impStep cfg st d).2.nextMark
        (impLoop cfg (impStep cfg st d).2 ds).2.nextMark hle1 hle2
    · rw [hl1, refsOK_append, hm1, hr1, Bool.true_and]
      have hdecl : List.range' 1 (st.nextMark - 1) ++
          List.range' st.nextMark ((impStep cfg st d).2.nextMark - st.nextMark) =
          List.range' 1 ((impStep cfg st d).2.nextMark - 1) := by
        have h1 : st.nextMark - 1 = st.nextMark - 1 := rfl
        have := range'_sub_append 1 st.nextMark (impStep cfg st d).2.nextMark
          hnm1 hle1
        rwa [show List.range' st.nextMark
          ((impStep cfg st d).2.nextMark - st.nextMark) =
          List.range' st.nextMark ((impStep cfg st d).2.nextMark - st.nextMark)
          from rfl] at this
      rw [hdecl]
      exact hr2
    · rw [hl2]
      exact hi2
    · rw [hl2]
      exact le_trans hle1 hle2

/-- C8: over a whole emitted stream, the declared marks are exactly
`1, ..., K` in strictly increasing order with no gaps or duplicates (only
commit records consume a mark; tag records carry none by construction of the
emitter, which never calls `GetNextMark` in `WriteTag`), and every `from :N`
line — on commits and on tags — references a mark declared earlier in the
stream. -/
theorem marks_contiguous_refs_resolved (cfg : ImpCfg) (l : List Delta)
    (recs : List Rec) (h : importDeltas cfg l = .ok recs) :
    commitMarks recs = List.range' 1 (commitMarks recs).length ∧
    refsOK [] recs = true := by
  match l with
  | [] => exact absurd h (by simp [importDeltas])
  | d :: ds =>
    rw [importDeltas] at h
    have hrecs : recs = (impLoop cfg initImpState (d :: ds)).1 ++
        (if (impLoop cfg initImpState (d :: ds)).2.parent.isSome
         then [Rec.commitEnd] else []) := by
      cases h
      rfl
    subst hrecs
    have hinv0 : ImpInv initImpState :=
      ⟨le_refl 1, Or.inl rfl, fun hx => Bool.noConfusion hx,
       fun hx => Bool.noConfusion hx⟩
    obtain ⟨hm, hr, _, _⟩ := impLoop_spec cfg (d :: ds) initImpState hinv0
    have htail : commitMarks
        (if (impLoop cfg initImpState (d :: ds)).2.parent.isSome
         then [Rec.commitEnd] else []) = [] := by
      split <;> rfl
    constructor
    · rw [commitMarks_append, htail, List.append_nil, hm, List.length_range']
      rfl
    · rw [refsOK_append]
      have hr0 : refsOK [] (impLoop cfg initImpState (d :: ds)).1 = true := hr
      rw [hr0, Bool.true_and]
      split <;> rfl

/-- Witness for C8 at a concrete two-commit run. -/
theorem marks_contiguous_refs_resolved_witness :
    commitMarks [Rec.commit 1 none dw1, Rec.fileModify dw1, Rec.commitEnd,
        Rec.commit 2 (some 1) dw2, Rec.fileModify dw2, Rec.commitEnd] =
      List.range' 1 (commitMarks [Rec.commit 1 none dw1, Rec.fileModify dw1,
        Rec.commitEnd, Rec.commit 2 (some 1) dw2, Rec.fileModify dw2,
        Rec.commitEnd]).length ∧
    refsOK [] [Rec.commit 1 none dw1, Rec.fileModify dw1, Rec.commitEnd,
        Rec.commit 2 (some 1) dw2, Rec.fileModify dw2, Rec.commitEnd] = true :=
  marks_contiguous_refs_resolved cfgW [dw1, dw2] _ (by rfl)

/-! ## SID validation (C6) and tag-label collisions (C7) -/

/-- C6: evaluating `GoodRevision` and the revision filter at the failing
input.  A SID with a non-numeric component (`"1.a"`) does not take the
diagnostic-and-skip path: `int` raises `ValueError` (modelled `.error`),
which propagates and aborts the construction, so the remaining valid SID
`"1.1"` of the same file is *not* imported — contradicting the claim.  The
other two rejection forms do behave as claimed: a SID with fewer than two
components (`"1"`) and SIDs with a zero or negative component (`"1.0"`,
`"-1.2"`) are skipped while `"1.1"` is kept. -/
theorem goodRevision_nonnumeric_aborts :
    goodRevision "1.a" = .error () ∧
      filterRevisions ["1.a", "1.1"] = .error () ∧
      goodRevision "1" = .ok false ∧
      goodRevision "1.0" = .ok false ∧
      filterRevisions ["1", "1.0", "-1.2", "1.1"] = .ok ["1.1"] :=
  ⟨rfl, rfl, rfl, rfl, rfl⟩

/-- Counterexample to C7: the second use of the base label `v1` (SID level
`2`) is emitted as `v2.1`, not `v1.1`: the suffixed label is built from
`SidLevel`, not from the colliding base `SidLevel - 1`. -/
theorem tag_collision_label_counterexample :
    tagLabel 2 [] = ("v1", [("v1", 0)]) ∧
      tagLabel 2 [("v1", 0)] = ("v2.1", [("v1", 1)]) ∧
      ("v2.1" : String) ≠ "v1.1" := by
  refine ⟨rfl, rfl, ?_⟩
  decide

/-- C7 as amended: for a SID level `L`, the first tag use emits the base
label `v<L-1>`; every later collision on that base label increments its
per-label counter `k` and emits `v<L>.<k>` — the counter is appended to the
*incremented* base.  `n + 1` successive uses from a fresh `_used_tags` emit
`v<L-1>, v<L>.1, v<L>.2, ..., v<L>.<n>`. -/
theorem tag_collision_label_amended (L : Int) (n : Nat) :
    (tagSeq L (n + 1)).1 =
      ("v" ++ toString (L - 1)) ::
        (List.range n).map
          (fun k => "v" ++ toString L ++ "." ++ toString (k + 1)) ∧
    (tagSeq L (n + 1)).2 = [("v" ++ toString (L - 1), n)] := by
  induction n with
  | zero => exact ⟨rfl, rfl⟩
  | succ n ih =>
    obtain ⟨ih1, ih2⟩ := ih
    have hs : tagLabel L [("v" ++ toString (L - 1), n)] =
        ("v" ++ toString L ++ "." ++ toString (n + 1),
         [("v" ++ toString (L - 1), n + 1)]) := by
      unfold tagLabel
      simp [assocFind, assocSet]
    constructor
    · show (tagSeq L (n + 1)).1 ++ [(tagLabel L (tagSeq L (n + 1)).2).1] = _
      rw [ih1, ih2, hs, List.range_succ]
      simp
    · show (tagLabel L (tagSeq L (n + 1)).2).2 = _
      rw [ih2, hs]

/-! ## Timezone priority and the move rule (C5) -/

/-- Counterexample to C5: with a global default zone configured (`+0000`), a
login absent from the author map, a configured move date and move zone
(`+0100`), and a civil time on/after the move date, the claim requires the
civil time to be re-interpreted in the move zone ("regardless of whether a
global default zone is configured"), i.e. result `(1000 - 3600, 3600)`.  The
code instead resolves `UserInfo.tz` to the *default* zone (because
`GetUserInfo` bakes `DEFAULT_USER_TZ` into the fallback `UserInfo`), so the
`self._ui.tz is None` guard fails and the move is never applied: the result
is `(1000, 0)`. -/
theorem move_zone_not_applied_counterexample :
    ui5.tz = some 0 ∧
      moveInstant cfg5 = some 0 ∧
      (1000 : Int) - 0 ≥ 0 ∧
      setTimestamp ui5.tz cfg5 1000 = (1000, 0) ∧
      ((1000 : Int), (0 : Int)) ≠ (1000 - cfg5.moveZone, cfg5.moveZone) := by
  refine ⟨rfl, rfl, by decide, rfl, by decide⟩

/-- C5 as amended: the zone priority is author-map zone → global default
zone → host local zone, as claimed; but the move re-interpretation fires only
when the *resolved* `UserInfo.tz` is `None`, i.e. when the login's author-map
entry carries no zone, or the login has no author-map entry *and* no global
default zone is configured.  In particular (case 2) when a global default
zone is configured and the login is absent from the author map, the move is
never applied. -/
theorem tz_priority_and_move_amended (am : List (String × UserInfoM))
    (pwdb : String → Option String) (login : String)
    (mailDom : Option String) (cfg : TzCfg) (civil : Int) :
    (∀ u z, am.lookup login = some u → u.tz = some z →
      setTimestamp (getUserInfo (some am) pwdb login mailDom cfg.defaultTz).tz
        cfg civil = (civil - z, z)) ∧
    (∀ zd, am.lookup login = none → cfg.defaultTz = some zd →
      setTimestamp (getUserInfo (some am) pwdb login mailDom cfg.defaultTz).tz
        cfg civil = (civil - zd, zd)) ∧
    (∀ u, am.lookup login = some u → u.tz = none →
      setTimestamp (getUserInfo (some am) pwdb login mailDom cfg.defaultTz).tz
        cfg civil =
        (match moveInstant cfg with
         | some mi =>
           if civil - (cfg.defaultTz.getD cfg.localOff) ≥ mi
           then (civil - cfg.moveZone, cfg.moveZone)
           else (civil - (cfg.defaultTz.getD cfg.localOff),
                 cfg.defaultTz.getD cfg.localOff)
         | none => (civil - (cfg.defaultTz.getD cfg.localOff),
                    cfg.defaultTz.getD cfg.localOff))) ∧
    (am.lookup login = none → cfg.defaultTz = none →
      setTimestamp (getUserInfo (some am) pwdb login mailDom cfg.defaultTz).tz
        cfg civil =
        (match moveInstant cfg with
         | some mi =>
           if civil - cfg.localOff ≥ mi
           then (civil - cfg.moveZone, cfg.moveZone)
           else (civil - cfg.localOff, cfg.localOff)
         | none => (civil - cfg.localOff, cfg.localOff))) := by
  have hui : ∀ tz, (getUserInfoFallback pwdb login mailDom tz).tz = tz := by
    intro tz
    unfold getUserInfoFallback
    cases pwdb login <;> rfl
  have hg : getUserInfo (some am) pwdb login mailDom cfg.defaultTz =
      (match am.lookup login with
       | some v => v
       | none => getUserInfoFallback pwdb login mailDom cfg.defaultTz) := rfl
  refine ⟨?_, ?_, ?_, ?_⟩
  · intro u z hu hz
    rw [hg, hu]
    show setTimestamp u.tz cfg civil = _
    rw [hz]
    unfold setTimestamp
    simp
  · intro zd hnone hzd
    rw [hg, hnone]
    show setTimestamp (getUserInfoFallback pwdb login mailDom cfg.defaultTz).tz
      cfg civil = _
    rw [hui, hzd]
    unfold setTimestamp
    simp
  · intro u hu hz
    rw [hg, hu]
    show setTimestamp u.tz cfg civil = _
    rw [hz]
    unfold setTimestamp
    cases hmi : moveInstant cfg with
    | none => simp [hmi]
    | some mi =>
      simp only [hmi, Option.none_orElse]
      by_cases hge : civil - cfg.defaultTz.getD cfg.localOff ≥ mi <;>
        simp [hge]
  · intro hnone hzd
    rw [hg, hnone]
    show setTimestamp (getUserInfoFallback pwdb login mailDom cfg.defaultTz).tz
      cfg civil = _
    rw [hui, hzd]
    unfold setTimestamp
    cases hmi : moveInstant cfg with
    | none => simp [hmi, hzd]
    | some mi =>
      simp only [hmi, hzd, Option.none_orElse, Option.getD_none]
      by_cases hge : civil - cfg.localOff ≥ mi <;>
        simp [hge]

/-- Witness for the amended C5, case 2: login absent from the author map and
a configured default zone `+0000` — the timestamp uses the default zone (and
not the move zone, although the move condition holds). -/
theorem tz_priority_and_move_amended_witness :
    List.lookup "alice" ([] : List (String × UserInfoM)) = none ∧
      cfg5.defaultTz = some 0 ∧
      setTimestamp (getUserInfo (some []) (fun _ => none) "alice" none
        cfg5.defaultTz).tz cfg5 1000 = (1000 - 0, 0) :=
  ⟨rfl, rfl,
   (tz_priority_and_move_amended [] (fun _ => none) "alice" none cfg5
     1000).2.1 0 rfl rfl⟩

/-! ## Release-tag emission (C2) -/

/-- Counterexample to C2: tagging is enabled, group `G` (single delta `dw2`,
SID `1.2`) is closed and the next group begins at `dw3` (SID `2.1`) with a
strictly greater SID level and revision 1 — yet the emitted stream contains
*no* tag record at all, let alone one between `G`'s commit and the next
commit: the tag write is deferred by `write_tag_next` to the *following*
group boundary, and the stream ends first. -/
theorem sid_level_tag_counterexample :
    cfgW.doTags = true ∧
      sameFuzzyCommit cfgW.fw dw2 dw3 = false ∧
      dw2.sidLevel < dw3.sidLevel ∧ dw3.sidRev = 1 ∧
      importDeltas cfgW [dw1, dw2, dw3] =
        .ok [Rec.commit 1 none dw1, Rec.fileModify dw1, Rec.commitEnd,
             Rec.commit 2 (some 1) dw2, Rec.fileModify dw2, Rec.commitEnd,
             Rec.commit 3 (some 2) dw3, Rec.fileModify dw3, Rec.commitEnd] ∧
      List.filter isTag
        [Rec.commit 1 none dw1, Rec.fileModify dw1, Rec.commitEnd,
         Rec.commit 2 (some 1) dw2, Rec.fileModify dw2, Rec.commitEnd,
         Rec.commit 3 (some 2) dw3, Rec.fileModify dw3, Rec.commitEnd] = [] :=
  ⟨rfl, by decide, by decide, by decide, by rfl, by rfl⟩

/-- C2 as amended: with tagging enabled, when group `G` (first delta `g`) is
closed and the next group `G'` begins at `h` with `SidLevel h > SidLevel g`
and `SidRev h = 1`, and `G` is not the first group of the stream, the tag is
emitted one boundary later: after `G'`'s commit is closed and before the
following commit, named `v<SidLevel h - 1>`, referencing the mark before
`G'`'s (i.e. `G`'s commit mark), with tagger identity, timestamp and message
taken from `h` — `G'`'s first delta, not `G`'s.  If the stream ends before
another group boundary, the scheduled tag is never emitted (second
conjunct). -/
theorem sid_level_tag_amended (cfg : ImpCfg) (f g h i : Delta)
    (hdo : cfg.doTags = true)
    (hfg : sameFuzzyCommit cfg.fw f g = false)
    (hgh : sameFuzzyCommit cfg.fw g h = false)
    (hhi : sameFuzzyCommit cfg.fw h i = false)
    (hlev : g.sidLevel < h.sidLevel)
    (hrev : h.sidRev = 1) :
    importDeltas cfg [f, g, h, i] = .ok
      [Rec.commit 1 none f, fileRec cfg f, Rec.commitEnd,
       Rec.commit 2 (some 1) g, fileRec cfg g, Rec.commitEnd,
       Rec.commit 3 (some 2) h, fileRec cfg h, Rec.commitEnd,
       Rec.tag ("v" ++ toString (h.sidLevel - 1)) 2 h,
       Rec.commit 4 (some 3) i, fileRec cfg i, Rec.commitEnd] ∧
    importDeltas cfg [f, g, h] = .ok
      [Rec.commit 1 none f, fileRec cfg f, Rec.commitEnd,
       Rec.commit 2 (some 1) g, fileRec cfg g, Rec.commitEnd,
       Rec.commit 3 (some 2) h, fileRec cfg h, Rec.commitEnd] := by
  have hcons : ∀ (st : ImpState) (d : Delta) (ds : List Delta),
      impLoop cfg st (d :: ds) =
        ((impStep cfg st d).1 ++ (impLoop cfg (impStep cfg st d).2 ds).1,
         (impLoop cfg (impStep cfg st d).2 ds).2) := fun _ _ _ => rfl
  have hnil : ∀ st : ImpState, impLoop cfg st [] = ([], st) := fun _ => rfl
  have s1 : impStep cfg initImpState f =
      ([Rec.commit 1 none f, fileRec cfg f],
       ⟨some f, none, some 1, some f, false, 1, 2, []⟩) := rfl
  have s2 : impStep cfg ⟨some f, none, some 1, some f, false, 1, 2, []⟩ g =
      ([Rec.commitEnd, Rec.commit 2 (some 1) g, fileRec cfg g],
       ⟨some g, some g, some 2, some g, false, 2, 3, []⟩) := by
    unfold impStep closePhase beginPhase
    simp [hfg]
  have s3 : impStep cfg ⟨some g, some g, some 2, some g, false, 2, 3, []⟩ h =
      ([Rec.commitEnd, Rec.commit 3 (some 2) h, fileRec cfg h],
       ⟨some h, some h, some 3, some h, true, 3, 4, []⟩) := by
    unfold impStep closePhase beginPhase
    simp [hgh, hlev, hrev]
  constructor
  · show Except.ok ((impLoop cfg initImpState [f, g, h, i]).1 ++
      if (impLoop cfg initImpState [f, g, h, i]).2.parent.isSome
      then [Rec.commitEnd] else []) = _
    by_cases htrig : i.sidLevel > h.sidLevel ∧ i.sidRev = 1
    · have s4 : impStep cfg ⟨some h, some h, some 3, some h, true, 3, 4, []⟩ i =
          ([Rec.commitEnd, Rec.tag ("v" ++ toString (h.sidLevel - 1)) 2 h,
            Rec.commit 4 (some 3) i, fileRec cfg i],
           ⟨some i, some i, some 4, some i, true, 4, 5,
            [("v" ++ toString (h.sidLevel - 1), 0)]⟩) := by
        unfold impStep closePhase beginPhase tagLabel
        simp [hhi, hdo, htrig.1, htrig.2, assocFind, assocSet]
      rw [hcons, s1, hcons, s2, hcons, s3, hcons, s4, hnil]
      rfl
    · have s4 : impStep cfg ⟨some h, some h, some 3, some h, true, 3, 4, []⟩ i =
          ([Rec.commitEnd, Rec.tag ("v" ++ toString (h.sidLevel - 1)) 2 h,
            Rec.commit 4 (some 3) i, fileRec cfg i],
           ⟨some i, some i, some 4, some i, false, 4, 5,
            [("v" ++ toString (h.sidLevel - 1), 0)]⟩) := by
        unfold impStep closePhase beginPhase tagLabel
        simp [hhi, hdo, htrig, assocFind, assocSet]
      rw [hcons, s1, hcons, s2, hcons, s3, hcons, s4, hnil]
      rfl
  · show Except.ok ((impLoop cfg initImpState [f, g, h]).1 ++
      if (impLoop cfg initImpState [f, g, h]).2.parent.isSome
      then [Rec.commitEnd] else []) = _
    rw [hcons, s1, hcons, s2, hcons, s3, hnil]
    rfl

/-- Witness for the amended C2 at a concrete four-delta run. -/
theorem sid_level_tag_amended_witness :
    importDeltas cfgW [dw1, dw2, dw3, dw4] = .ok
      [Rec.commit 1 none dw1, fileRec cfgW dw1, Rec.commitEnd,
       Rec.commit 2 (some 1) dw2, fileRec cfgW dw2, Rec.commitEnd,
       Rec.commit 3 (some 2) dw3, fileRec cfgW dw3, Rec.commitEnd,
       Rec.tag ("v" ++ toString (dw3.sidLevel - 1)) 2 dw3,
       Rec.commit 4 (some 3) dw4, fileRec cfgW dw4, Rec.commitEnd] ∧
    importDeltas cfgW [dw1, dw2, dw3] = .ok
      [Rec.commit 1 none dw1, fileRec cfgW dw1, Rec.commitEnd,
       Rec.commit 2 (some 1) dw2, fileRec cfgW dw2, Rec.commitEnd,
       Rec.commit 3 (some 2) dw3, fileRec cfgW dw3, Rec.commitEnd] :=
  sid_level_tag_amended cfgW dw1 dw2 dw3 dw4 rfl (by decide) (by decide)
    (by decide) (by decide) (by decide)

/-! ## Structure of the path computation (C9) -/

theorem splitTailP_no_slash (p : List Char) : '/' ∉ splitTailP p := by
  intro hmem
  unfold splitTailP at hmem
  rw [List.mem_reverse] at hmem
  have := List.mem_takeWhile_imp hmem
  simp at this

theorem splitTailP_suffix (p : List Char) : splitTailP p <:+ p := by
  have h := List.takeWhile_prefix (l := p.reverse) (p := fun c => decide (c ≠ '/'))
  have h2 := List.reverse_suffix.mpr h
  rw [List.reverse_reverse] at h2
  exact h2

theorem splitTailP_length_lt {p : List Char} (hslash : '/' ∈ p) :
    (splitTailP p).length < p.length := by
  have hsuf := splitTailP_suffix p
  have hle := hsuf.length_le
  rcases lt_or_eq_of_le hle with h | h
  · exact h
  · exfalso
    have heq : splitTailP p = p := hsuf.eq_of_length h
    exact splitTailP_no_slash p (by rw [heq]; exact hslash)

theorem dropTrailing_prefix (l : List Char) :
    (l.reverse.dropWhile (fun c => decide (c = '/'))).reverse <+: l := by
  have h := List.dropWhile_suffix (l := l.reverse) (fun c => decide (c = '/'))
  have h2 := List.reverse_prefix.mpr h
  rw [List.reverse_reverse] at h2
  exact h2

theorem dropTrailing_ne_nil {l : List Char}
    (h : ¬ l.all (fun c => decide (c = '/')) = true) :
    (l.reverse.dropWhile (fun c => decide (c = '/'))).reverse ≠ [] := by
  intro he
  apply h
  have hnil : l.reverse.dropWhile (fun c => decide (c = '/')) = [] := by
    simpa using congrArg List.reverse he
  rw [List.dropWhile_eq_nil_iff] at hnil
  rw [List.all_eq_true]
  intro x hx
  exact hnil x (List.mem_reverse.mpr hx)

theorem prefix_cons_shape {l t : List Char} {a : Char}
    (hpre : l <+: (a :: t)) (hne : l ≠ []) : ∃ u, l = a :: u := by
  match l, hpre with
  | [], _ => exact absurd rfl hne
  | b :: u, hp =>
    obtain ⟨v, hv⟩ := hp
    cases hv
    exact ⟨u, rfl⟩

/-- An absolute path starts with a slash. -/
theorem isabsP_true_shape {l : List Char} (h : isabsP l = true) :
    ∃ t, l = '/' :: t := by
  match l with
  | [] => exact Bool.noConfusion h
  | c :: t =>
    have hc : c = '/' := by
      have : decide (c = '/') = true := h
      exact of_decide_eq_true this
    exact ⟨t, by rw [hc]⟩

/-- A slash-free list is not absolute. -/
theorem isabsP_eq_false_of_no_slash {l : List Char} (h : '/' ∉ l) :
    isabsP l = false := by
  match l with
  | [] => rfl
  | c :: t =>
    have hc : c ≠ '/' := fun hcc => h (hcc ▸ List.mem_cons_self c t)
    exact decide_eq_false hc

/-- Splitting an absolute path leaves an absolute, nonempty head. -/
theorem splitHeadP_abs {p : List Char} (habs : isabsP p = true) :
    isabsP (splitHeadP p) = true ∧ splitHeadP p ≠ [] := by
  obtain ⟨p', rfl⟩ := isabsP_true_shape habs
  have hslash : '/' ∈ '/' :: p' := List.mem_cons_self _ _
  have hlt := splitTailP_length_lt (p := '/' :: p') hslash
  unfold splitHeadP
  have htake : ∃ u, (('/' :: p').take
      (('/' :: p').length - (splitTailP ('/' :: p')).length)) = '/' :: u := by
    obtain ⟨n, hn⟩ : ∃ n, ('/' :: p').length -
        (splitTailP ('/' :: p')).length = n + 1 :=
      ⟨('/' :: p').length - (splitTailP ('/' :: p')).length - 1, by omega⟩
    rw [hn]
    exact ⟨p'.take n, rfl⟩
  obtain ⟨u, hu⟩ := htake
  rw [hu]
  by_cases hall : ('/' :: u).all (fun c => decide (c = '/')) = true
  · rw [if_pos hall]
    exact ⟨rfl, by simp⟩
  · rw [if_neg hall]
    have hpre := dropTrailing_prefix ('/' :: u)
    have hne := dropTrailing_ne_nil hall
    obtain ⟨v, hv⟩ := prefix_cons_shape hpre hne
    rw [hv]
    exact ⟨rfl, by simp⟩

/-- Joining an absolute head with a non-absolute tail is absolute. -/
theorem joinPathP_abs_left {a b : List Char} (ha : isabsP a = true)
    (hb : isabsP b = false) : isabsP (joinPathP a b) = true := by
  obtain ⟨t, rfl⟩ := isabsP_true_shape ha
  unfold joinPathP
  simp only [hb, Bool.false_eq_true, if_false]
  split <;> simp [isabsP]

set_option maxHeartbeats 1000000 in
/-- `_GottenName` maps absolute paths to absolute paths. -/
theorem gottenName_abs {f : List Char} (habs : isabsP f = true) :
    isabsP (gottenName f) = true := by
  show isabsP (joinPathP
      (if (splitPathP (splitPathP f).1).2 = ['S', 'C', 'C', 'S']
       then (splitPathP (splitPathP f).1).1 else (splitPathP f).1)
      (if (splitPathP f).2.take 2 = ['s', '.']
       then (splitPathP f).2.drop 2 else (splitPathP f).2)) = true
  apply joinPathP_abs_left
  · split
    · exact (splitHeadP_abs (splitHeadP_abs habs).1).1
    · exact (splitHeadP_abs habs).1
  · apply isabsP_eq_false_of_no_slash
    split
    · intro hm
      exact splitTailP_no_slash f (List.mem_of_mem_drop hm)
    · exact splitTailP_no_slash f

/-- `pySplit` never returns the empty list of pieces. -/
theorem pySplit_ne_nil (sep : Char) (l : List Char) : pySplit sep l ≠ [] := by
  match l with
  | [] => simp [pySplit]
  | c :: cs =>
    rw [pySplit]
    cases hps : pySplit sep cs with
    | nil => simp
    | cons g gs =>
      by_cases hc : c = sep
      · simp [hc]
      · simp [hc]

/-- No piece of `pySplit sep l` contains the separator. -/
theorem pySplit_no_sep (sep : Char) (l : List Char) :
    ∀ g ∈ pySplit sep l, sep ∉ g := by
  induction l with
  | nil =>
    intro g hg
    simp [pySplit] at hg
    subst hg
    simp
  | cons c cs ih =>
    intro g hg
    cases hps : pySplit sep cs with
    | nil => exact absurd hps (pySplit_ne_nil sep cs)
    | cons g0 gs =>
      have he : pySplit sep (c :: cs) =
          if c = sep then [] :: g0 :: gs else (c :: g0) :: gs := by
        rw [pySplit, hps]
      rw [he] at hg
      by_cases hc : c = sep
      · rw [if_pos hc] at hg
        rcases List.mem_cons.mp hg with rfl | hg2
        · simp
        · exact ih g (by rw [hps]; exact hg2)
      · rw [if_neg hc] at hg
        rcases List.mem_cons.mp hg with rfl | hg2
        · intro hmem
          rcases List.mem_cons.mp hmem with rfl | hmem2
          · exact hc rfl
          · exact ih g0 (by rw [hps]; exact List.mem_cons_self _ _) hmem2
        · exact ih g (by rw [hps]; exact List.mem_cons_of_mem _ hg2)

/-- Components surviving `processComps` come from the accumulator or are
good pieces of the input. -/
theorem processComps_mem (ab : Bool) :
    ∀ (cs acc : List (List Char)), ∀ x ∈ processComps ab acc cs,
      x ∈ acc ∨ (x ∈ cs ∧ x ≠ [] ∧ x ≠ ['.']) := by
  intro cs
  induction cs with
  | nil =>
    intro acc x hx
    left
    exact hx
  | cons c cs ih =>
    intro acc x hx
    rw [processComps] at hx
    split_ifs at hx with h1 h2
    · rcases ih acc x hx with h | h
      · left; exact h
      · right; exact ⟨List.mem_cons_of_mem _ h.1, h.2⟩
    · rcases ih (acc ++ [c]) x hx with h | h
      · rcases List.mem_append.mp h with h3 | h3
        · left; exact h3
        · right
          rw [List.mem_singleton.mp h3]
          rcases not_or.mp h1 with ⟨hne, hnd⟩
          exact ⟨List.mem_cons_self _ _, hne, hnd⟩
      · right; exact ⟨List.mem_cons_of_mem _ h.1, h.2⟩
    · rcases ih acc.dropLast x hx with h | h
      · left; exact (List.dropLast_sublist acc).subset h
      · right; exact ⟨List.mem_cons_of_mem _ h.1, h.2⟩

/-- `normpath` on a nonempty relative path. -/
theorem normpathP_rel_eq {p : List Char} (h : isabsP p = false) (hp : p ≠ []) :
    normpathP p =
      (if joinComps (processComps false [] (splitOnSlash p)) = []
       then ['.'] else joinComps (processComps false [] (splitOnSlash p))) := by
  unfold normpathP
  rw [if_neg hp]
  simp [h]

/-- `normpath` maps relative paths to relative paths. -/
theorem normpathP_not_abs {p : List Char} (h : isabsP p = false) :
    isabsP (normpathP p) = false := by
  by_cases hp : p = []
  · subst hp; rfl
  · rw [normpathP_rel_eq h hp]
    cases hnc : processComps false [] (splitOnSlash p) with
    | nil => simp [joinComps, isabsP]
    | cons c cs =>
      have hcmem := processComps_mem false (splitOnSlash p) [] c
        (by rw [hnc]; exact List.mem_cons_self _ _)
      rcases hcmem with h0 | ⟨hmem, hne, _⟩
      · exact absurd h0 (List.not_mem_nil c)
      · have hnos : '/' ∉ c := pySplit_no_sep '/' p c hmem
        obtain ⟨a, t, rfl⟩ : ∃ a t, c = a :: t := by
          match c, hne with
          | a :: t, _ => exact ⟨a, t, rfl⟩
        have ha : a ≠ '/' := fun haa => hnos (haa ▸ List.mem_cons_self a t)
        have hjc : ∃ rest, joinComps ((a :: t) :: cs) = a :: rest := by
          cases cs with
          | nil => exact ⟨t, rfl⟩
          | cons cg cs' => exact ⟨t ++ '/' :: joinComps (cg :: cs'), rfl⟩
        obtain ⟨rest, hrest⟩ := hjc
        rw [hrest, if_neg (by simp : (a :: rest) ≠ [])]
        exact decide_eq_false ha

/-- First part of C9 kept by the amendment: absolute source paths are
rejected. -/
theorem targetPath_error_of_abs {f : List Char} (habs : isabsP f = true) :
    targetPath f = .error "absolute path name" := by
  unfold targetPath gitFriendlyName
  rw [if_pos (gottenName_abs habs)]

/-- Second part: accepted target paths never begin with a slash. -/
theorem targetPath_ok_not_abs {f r : List Char} (h : targetPath f = .ok r) :
    isabsP r = false := by
  unfold targetPath gitFriendlyName at h
  by_cases habs : isabsP (gottenName f) = true
  · rw [if_pos habs] at h
    cases h
  · rw [if_neg habs] at h
    cases h
    exact normpathP_not_abs (eq_false_of_ne_true habs)

/-- The component loop keeps every `..` in a leading run. -/
theorem processComps_dd (cs : List (List Char)) :
    ∀ acc, (∃ k rest, acc = List.replicate k ['.', '.'] ++ rest ∧ ['.', '.'] ∉ rest) →
      ∃ k rest, processComps false acc cs = List.replicate k ['.', '.'] ++ rest ∧
        ['.', '.'] ∉ rest := by
  induction cs with
  | nil =>
    intro acc h
    exact h
  | cons c cs ih =>
    intro acc h
    rw [processComps]
    split_ifs with h1 h2
    · exact ih acc h
    · obtain ⟨k, rest, rfl, hdd⟩ := h
      by_cases hc : c = ['.', '.']
      · subst hc
        have hrest : rest = [] := by
          rcases h2 with h2 | h2 | h2
          · exact absurd rfl h2
          · exact (List.append_eq_nil.mp h2.2).2
          · rcases h2 with ⟨hne, hlast⟩
            by_contra hrne
            rw [List.getLast?_append] at hlast
            have hr : rest.getLast? = some ['.', '.'] := by
              cases hrl : rest.getLast? with
              | none =>
                exfalso
                rw [List.getLast?_eq_none_iff] at hrl
                exact hrne hrl
              | some x =>
                rw [hrl, Option.or_some] at hlast
                exact hlast
            exact hdd (List.mem_of_getLast?_eq_some hr)
        subst hrest
        refine ih (List.replicate k ['.', '.'] ++ [] ++ [['.', '.']]) ⟨k + 1, [], ?_, by simp⟩
        rw [List.append_nil, List.append_nil, ← List.replicate_succ' k ['.', '.']]
      · refine ih (List.replicate k ['.', '.'] ++ rest ++ [c]) ⟨k, rest ++ [c],
          by rw [List.append_assoc], ?_⟩
        intro hm
        rcases List.mem_append.mp hm with hm | hm
        · exact hdd hm
        · exact hc (List.mem_singleton.mp hm).symm
    · obtain ⟨k, rest, rfl, hdd⟩ := h
      apply ih
      by_cases hr : rest = []
      · subst hr
        rw [List.append_nil]
        refine ⟨k - 1, [], ?_, by simp⟩
        rw [List.append_nil]
        cases k with
        | zero => rfl
        | succ k =>
          rw [List.replicate_succ' k ['.', '.'], List.dropLast_concat]
          rfl
      · refine ⟨k, rest.dropLast, ?_,
          fun hm => hdd ((List.dropLast_sublist rest).subset hm)⟩
        rw [List.dropLast_append_of_ne_nil _ hr]

/-- The component loop appends components that are never `''`, `'.'` or
`'..'` unchanged. -/
theorem processComps_no_dd_id (cs : List (List Char))
    (hgood : ∀ c ∈ cs, c ≠ [] ∧ c ≠ ['.'] ∧ c ≠ ['.', '.']) :
    ∀ acc, processComps false acc cs = acc ++ cs := by
  induction cs with
  | nil =>
    intro acc
    rw [List.append_nil]
    rfl
  | cons c cs ih =>
    intro acc
    obtain ⟨hc1, hc2, hc3⟩ := hgood c (List.mem_cons_self _ _)
    rw [processComps, if_neg (not_or.mpr ⟨hc1, hc2⟩), if_pos (Or.inl hc3),
      ih (fun x hx => hgood x (List.mem_cons_of_mem _ hx)) (acc ++ [c]),
      List.append_assoc]
    rfl

/-- The component loop is the identity on a leading `..` run followed by
`..`-free good components, relative to an all-`..` accumulator. -/
theorem processComps_dd_prefix_id (rest : List (List Char))
    (hrest : ∀ c ∈ rest, c ≠ [] ∧ c ≠ ['.'] ∧ c ≠ ['.', '.']) :
    ∀ (k : Nat) (acc : List (List Char)),
      (acc = [] ∨ acc.getLast? = some ['.', '.']) →
      processComps false acc (List.replicate k ['.', '.'] ++ rest) =
        acc ++ List.replicate k ['.', '.'] ++ rest := by
  intro k
  induction k with
  | zero =>
    intro acc _
    rw [List.replicate, List.nil_append, processComps_no_dd_id rest hrest acc,
      List.append_nil]
  | succ k ih =>
    intro acc hacc
    rw [List.replicate_succ, List.cons_append, processComps]
    have hnd : ¬ ((['.', '.'] : List Char) = [] ∨ (['.', '.'] : List Char) = ['.']) := by
      decide
    rw [if_neg hnd]
    have hpos : ['.', '.'] ≠ ['.', '.'] ∨ (¬ ((false : Bool) = true) ∧ acc = []) ∨
        (acc ≠ [] ∧ acc.getLast? = some ['.', '.']) := by
      rcases hacc with h | h
      · exact Or.inr (Or.inl ⟨by simp, h⟩)
      · refine Or.inr (Or.inr ⟨?_, h⟩)
        intro hnil
        rw [hnil] at h
        cases h
    rw [if_pos hpos, ih (acc ++ [['.', '.']]) (Or.inr (List.getLast?_concat acc))]
    simp

/-- `pySplit` of a separator-free string. -/
theorem pySplit_no_sep_id (sep : Char) (c : List Char) (h : sep ∉ c) :
    pySplit sep c = [c] := by
  induction c with
  | nil => rfl
  | cons x t ih =>
    have hx : x ≠ sep := fun hxx => h (hxx ▸ List.mem_cons_self x t)
    have ht := ih (fun hm => h (List.mem_cons_of_mem _ hm))
    rw [pySplit, ht]
    show (if x = sep then [[], t] else [x :: t]) = [x :: t]
    rw [if_neg hx]

/-- `pySplit` across one separator. -/
theorem pySplit_append_sep (sep : Char) (a b : List Char) (ha : sep ∉ a) :
    pySplit sep (a ++ sep :: b) = a :: pySplit sep b := by
  induction a with
  | nil =>
    cases hps : pySplit sep b with
    | nil => exact absurd hps (pySplit_ne_nil sep b)
    | cons g gs =>
      show pySplit sep (sep :: b) = [] :: g :: gs
      rw [pySplit, hps]
      show (if sep = sep then [] :: g :: gs else (sep :: g) :: gs) = _
      rw [if_pos rfl]
  | cons x a ih =>
    have hx : x ≠ sep := fun hxx => ha (hxx ▸ List.mem_cons_self x _)
    have ih2 := ih (fun hm => ha (List.mem_cons_of_mem _ hm))
    show pySplit sep (x :: (a ++ sep :: b)) = (x :: a) :: pySplit sep b
    cases hps : pySplit sep b with
    | nil => exact absurd hps (pySplit_ne_nil sep b)
    | cons g gs =>
      rw [hps] at ih2
      rw [pySplit, ih2]
      show (if x = sep then [] :: a :: g :: gs else (x :: a) :: g :: gs) = _
      rw [if_neg hx]

/-- `'/'.join` of nonempty components is nonempty. -/
theorem joinComps_ne_nil {cs : List (List Char)} (hne : cs ≠ [])
    (hg : ∀ c ∈ cs, c ≠ []) : joinComps cs ≠ [] := by
  match cs, hne with
  | [c], _ => exact hg c (List.mem_cons_self _ _)
  | c :: cg :: cs', _ =>
    show c ++ '/' :: joinComps (cg :: cs') ≠ []
    simp

/-- `'/'.join` distributes over appending a final component. -/
theorem joinComps_concat : ∀ (cs : List (List Char)), cs ≠ [] →
    ∀ x, joinComps (cs ++ [x]) = joinComps cs ++ '/' :: x
  | [], h, _ => absurd rfl h
  | [c], _, x => rfl
  | c :: cg :: cs', _, x => by
    show c ++ '/' :: joinComps ((cg :: cs') ++ [x]) =
      (c ++ '/' :: joinComps (cg :: cs')) ++ '/' :: x
    rw [joinComps_concat (cg :: cs') (by simp) x]
    simp

/-- `split('/')` inverts `'/'.join` on slash-free components. -/
theorem splitOnSlash_joinComps : ∀ (cs : List (List Char)), cs ≠ [] →
    (∀ c ∈ cs, '/' ∉ c) → splitOnSlash (joinComps cs) = cs
  | [], h, _ => absurd rfl h
  | [c], _, hns => pySplit_no_sep_id '/' c (hns c (List.mem_cons_self _ _))
  | c :: cg :: cs', _, hns => by
    show pySplit '/' (c ++ '/' :: joinComps (cg :: cs')) = c :: cg :: cs'
    rw [pySplit_append_sep '/' c _ (hns c (List.mem_cons_self _ _))]
    rw [show pySplit '/' (joinComps (cg :: cs')) =
        splitOnSlash (joinComps (cg :: cs')) from rfl]
    rw [splitOnSlash_joinComps (cg :: cs') (by simp)
      (fun y hy => hns y (List.mem_cons_of_mem _ hy))]

/-- The tail of a slash-free path is the path itself. -/
theorem splitTailP_of_no_slash {c : List Char} (h : '/' ∉ c) :
    splitTailP c = c := by
  unfold splitTailP
  have ht : c.reverse.takeWhile (fun x => decide (x ≠ '/')) = c.reverse := by
    rw [List.takeWhile_eq_self_iff]
    intro x hx
    exact decide_eq_true (fun hxx => h (hxx ▸ List.mem_reverse.mp hx))
  rw [ht, List.reverse_reverse]

/-- Take-while runs past a satisfying prefix. -/
theorem takeWhile_append_pos {p : Char → Bool} {a : List Char}
    (h : ∀ x ∈ a, p x = true) (b : List Char) :
    (a ++ b).takeWhile p = a ++ b.takeWhile p := by
  induction a with
  | nil => rfl
  | cons x t ih =>
    rw [List.cons_append,
      List.takeWhile_cons_of_pos (h x (List.mem_cons_self _ _)),
      ih (fun y hy => h y (List.mem_cons_of_mem _ hy)), List.cons_append]

/-- The split tail after the last slash. -/
theorem splitTailP_append {a b : List Char} (hb : '/' ∉ b) :
    splitTailP (a ++ '/' :: b) = b := by
  unfold splitTailP
  rw [List.reverse_append, List.reverse_cons, List.append_assoc]
  have hpos : ∀ x ∈ b.reverse, (fun x => decide (x ≠ '/')) x = true := by
    intro x hx
    exact decide_eq_true (fun hxx => hb (hxx ▸ List.mem_reverse.mp hx))
  rw [takeWhile_append_pos hpos _]
  rw [show ((['/'] ++ a.reverse).takeWhile (fun x => decide (x ≠ '/'))) = []
    from by rw [List.singleton_append, List.takeWhile_cons_of_neg (by simp)]]
  rw [List.append_nil, List.reverse_reverse]

/-- The split head before the last slash, provided the head does not end in
a slash and has a non-slash character. -/
theorem splitHeadP_append {a b : List Char} (hb : '/' ∉ b) (hane : a ≠ [])
    (hlast : a.getLast? ≠ some '/') (hsome : ∃ x ∈ a, x ≠ '/') :
    splitHeadP (a ++ '/' :: b) = a := by
  unfold splitHeadP
  rw [splitTailP_append hb]
  have hlen : (a ++ '/' :: b).length - b.length = a.length + 1 := by
    rw [List.length_append, List.length_cons]
    omega
  rw [hlen]
  have htake : (a ++ '/' :: b).take (a.length + 1) = a ++ ['/'] := by
    rw [List.append_cons]
    exact List.take_left' (by simp)
  rw [htake]
  have hnall : ¬ (a ++ ['/']).all (fun c => decide (c = '/')) = true := by
    obtain ⟨x, hx, hxs⟩ := hsome
    intro hall
    rw [List.all_eq_true] at hall
    exact hxs (of_decide_eq_true (hall x (List.mem_append_left _ hx)))
  rw [if_neg hnall]
  rw [List.reverse_append]
  rw [show (['/'].reverse ++ a.reverse) = '/' :: a.reverse from by simp]
  rw [List.dropWhile_cons_of_pos (by simp)]
  obtain ⟨a0, arest, hav⟩ : ∃ a0 arest, a.reverse = a0 :: arest := by
    cases har : a.reverse with
    | nil =>
      exact absurd (by simpa using congrArg List.reverse har) hane
    | cons a0 arest => exact ⟨a0, arest, rfl⟩
  have ha0 : a0 ≠ '/' := by
    have hh : a.reverse.head? = some a0 := by rw [hav]; rfl
    rw [List.head?_reverse] at hh
    intro h0
    exact hlast (h0 ▸ hh)
  rw [hav, List.dropWhile_cons_of_neg (by simpa using ha0), ← hav,
    List.reverse_reverse]

/-- `'/'.join` of good slash-free components does not end in a slash. -/
theorem joinComps_getLast_ne_slash : ∀ (cs : List (List Char)), cs ≠ [] →
    (∀ c ∈ cs, c ≠ [] ∧ '/' ∉ c) → (joinComps cs).getLast? ≠ some '/'
  | [], h, _ => absurd rfl h
  | [c], _, hg => by
    intro hl
    exact (hg c (List.mem_cons_self _ _)).2 (List.mem_of_getLast?_eq_some hl)
  | c :: cg :: cs', _, hg => by
    have ih := joinComps_getLast_ne_slash (cg :: cs') (by simp)
      (fun y hy => hg y (List.mem_cons_of_mem _ hy))
    have hjne : joinComps (cg :: cs') ≠ [] :=
      joinComps_ne_nil (by simp)
        (fun y hy => (hg y (List.mem_cons_of_mem _ hy)).1)
    show (c ++ '/' :: joinComps (cg :: cs')).getLast? ≠ some '/'
    rw [List.getLast?_append]
    cases hjl : (joinComps (cg :: cs')).getLast? with
    | none => exact absurd (List.getLast?_eq_none_iff.mp hjl) hjne
    | some y =>
      have hy : y ≠ '/' := fun h0 => ih (h0 ▸ hjl)
      rw [show ('/' :: joinComps (cg :: cs')) = ['/'] ++ joinComps (cg :: cs')
        from rfl, List.getLast?_append, hjl, Option.or_some, Option.or_some]
      intro hcon
      cases hcon
      exact hy rfl

/-- The first component is a prefix of the join. -/
theorem joinComps_prefix : ∀ (c : List Char) (t : List (List Char)),
    ∃ s, joinComps (c :: t) = c ++ s
  | c, [] => ⟨[], (List.append_nil c).symm⟩
  | _, cg :: t => ⟨'/' :: joinComps (cg :: t), rfl⟩

/-- A join headed by a nonempty slash-free component is relative. -/
theorem isabsP_joinComps {c0 : List Char} (t : List (List Char))
    (hne : c0 ≠ []) (hns : '/' ∉ c0) :
    isabsP (joinComps (c0 :: t)) = false := by
  match c0, hne, hns with
  | x0 :: c0t, _, hns =>
    obtain ⟨s, hs⟩ := joinComps_prefix (x0 :: c0t) t
    rw [hs]
    show decide (x0 = '/') = false
    exact decide_eq_false (fun hx => hns (hx ▸ List.mem_cons_self x0 c0t))

/-- The split head of a slash-free path is empty. -/
theorem splitHeadP_of_no_slash {c : List Char} (h : '/' ∉ c) :
    splitHeadP c = [] := by
  unfold splitHeadP
  rw [splitTailP_of_no_slash h, Nat.sub_self, List.take_zero]
  rfl

/-- `normpath` of a relative path is in normal form: either `.` or a join of
good components whose `..`s form a leading run. -/
theorem NFPath_normpathP {p : List Char} (h : isabsP p = false) :
    NFPath (normpathP p) := by
  by_cases hp : p = []
  · subst hp
    left
    rfl
  · rw [normpathP_rel_eq h hp]
    by_cases hj : joinComps (processComps false [] (splitOnSlash p)) = []
    · rw [if_pos hj]
      left
      rfl
    · rw [if_neg hj]
      right
      refine ⟨processComps false [] (splitOnSlash p), ?_, ⟨?_, ?_⟩, rfl⟩
      · intro h0
        apply hj
        rw [h0]
        rfl
      · intro c hc
        rcases processComps_mem false (splitOnSlash p) [] c hc with h0 | ⟨hmem, hne, hnd⟩
        · exact absurd h0 (List.not_mem_nil c)
        · exact ⟨hne, hnd, pySplit_no_sep '/' p c hmem⟩
      · exact processComps_dd (splitOnSlash p) [] ⟨0, [], rfl, List.not_mem_nil _⟩

/-- Normal-form paths are relative, nonempty, and fixed by `normpath`. -/
theorem normpathP_NF_id {r : List Char} (h : NFPath r) :
    isabsP r = false ∧ r ≠ [] ∧ normpathP r = r := by
  rcases h with hdot | ⟨cs, hne, ⟨hgood, k, rest, hcs, hdd⟩, hr⟩
  · subst hdot
    exact ⟨rfl, by decide, rfl⟩
  · subst hr
    cases cs with
    | nil => exact absurd rfl hne
    | cons c0 t =>
      have hc0 := hgood c0 (List.mem_cons_self _ _)
      have habs : isabsP (joinComps (c0 :: t)) = false :=
        isabsP_joinComps t hc0.1 hc0.2.2
      have hjne : joinComps (c0 :: t) ≠ [] :=
        joinComps_ne_nil (by simp) (fun c hc => (hgood c hc).1)
      refine ⟨habs, hjne, ?_⟩
      rw [normpathP_rel_eq habs hjne]
      rw [splitOnSlash_joinComps (c0 :: t) (by simp)
        (fun c hc => (hgood c hc).2.2)]
      have hrest : ∀ c ∈ rest, c ≠ [] ∧ c ≠ ['.'] ∧ c ≠ ['.', '.'] := by
        intro c hc
        have hcm : c ∈ c0 :: t := by
          rw [hcs]
          exact List.mem_append_right _ hc
        exact ⟨(hgood c hcm).1, (hgood c hcm).2.1, fun hcd => hdd (hcd ▸ hc)⟩
      have hproc : processComps false [] (c0 :: t) = c0 :: t := by
        rw [hcs, processComps_dd_prefix_id rest hrest k [] (Or.inl rfl)]
        simp
      rw [hproc, if_neg hjne]

/-- `_GottenName` fixes a normal-form path whose filename part does not start
with `s.` and whose immediate parent directory is not exactly `SCCS`. -/
theorem gottenName_NF {r : List Char} (h : NFPath r)
    (hs1 : (splitPathP r).2.take 2 ≠ ['s', '.'])
    (hs2 : (splitPathP (splitPathP r).1).2 ≠ ['S', 'C', 'C', 'S']) :
    gottenName r = r := by
  rcases h with hdot | ⟨cs, hne, ⟨hgood, k, rest, hcs, hdd⟩, hr⟩
  · subst hdot
    rfl
  · subst hr
    rcases List.eq_nil_or_concat cs with h0 | ⟨init, last, hconcat⟩
    · exact absurd h0 hne
    subst hconcat
    rw [List.concat_eq_append] at hs1 hs2 hgood ⊢
    have hlm : last ∈ init ++ [last] :=
      List.mem_append_right _ (List.mem_cons_self _ _)
    have hlast := hgood last hlm
    by_cases hinit : init = []
    · subst hinit
      show gottenName (joinComps [last]) = joinComps [last]
      show gottenName last = last
      have hs1l : last.take 2 ≠ ['s', '.'] := by
        intro hcon
        apply hs1
        show List.take 2 (splitTailP last) = ['s', '.']
        rw [splitTailP_of_no_slash hlast.2.2]
        exact hcon
      show joinPathP
          (if (splitPathP (splitPathP last).1).2 = ['S', 'C', 'C', 'S']
           then (splitPathP (splitPathP last).1).1 else (splitPathP last).1)
          (if (splitPathP last).2.take 2 = ['s', '.']
           then (splitPathP last).2.drop 2 else (splitPathP last).2) = last
      have h2 : (splitPathP last).2 = last := splitTailP_of_no_slash hlast.2.2
      have h1 : (splitPathP last).1 = [] := splitHeadP_of_no_slash hlast.2.2
      rw [h2, h1, if_neg hs1l]
      rw [show (splitPathP ([] : List Char)).2 = [] from rfl]
      rw [if_neg (by decide : ¬ ([] : List Char) = ['S', 'C', 'C', 'S'])]
      show joinPathP [] last = last
      unfold joinPathP
      rw [if_neg (by rw [isabsP_eq_false_of_no_slash hlast.2.2]; simp)]
      rw [if_pos (Or.inl rfl), List.nil_append]
    · have hginit : ∀ c ∈ init, c ≠ [] ∧ '/' ∉ c := by
        intro c hc
        have hcg := hgood c (List.mem_append_left _ hc)
        exact ⟨hcg.1, hcg.2.2⟩
      have hane : joinComps init ≠ [] :=
        joinComps_ne_nil hinit (fun c hc => (hginit c hc).1)
      have halast : (joinComps init).getLast? ≠ some '/' :=
        joinComps_getLast_ne_slash init hinit hginit
      have hsome : ∃ x ∈ joinComps init, x ≠ '/' := by
        cases init with
        | nil => exact absurd rfl hinit
        | cons i0 it =>
          have hi0 := hginit i0 (List.mem_cons_self _ _)
          match i0, hi0 with
          | x0 :: i0t, hi0 =>
            obtain ⟨s, hs⟩ := joinComps_prefix (x0 :: i0t) it
            refine ⟨x0, ?_, fun hx => hi0.2 (hx ▸ List.mem_cons_self x0 i0t)⟩
            rw [hs]
            exact List.mem_append_left _ (List.mem_cons_self _ _)
      have hjoin : joinComps (init ++ [last]) =
          joinComps init ++ '/' :: last := joinComps_concat init hinit last
      have hr2 : (splitPathP (joinComps (init ++ [last]))).2 = last := by
        show splitTailP (joinComps (init ++ [last])) = last
        rw [hjoin]
        exact splitTailP_append hlast.2.2
      have hr1 : (splitPathP (joinComps (init ++ [last]))).1 = joinComps init := by
        show splitHeadP (joinComps (init ++ [last])) = joinComps init
        rw [hjoin]
        exact splitHeadP_append hlast.2.2 hane halast hsome
      rw [hr2] at hs1
      rw [hr1] at hs2
      show joinPathP
          (if (splitPathP (splitPathP (joinComps (init ++ [last]))).1).2 =
              ['S', 'C', 'C', 'S']
           then (splitPathP (splitPathP (joinComps (init ++ [last]))).1).1
           else (splitPathP (joinComps (init ++ [last]))).1)
          (if (splitPathP (joinComps (init ++ [last]))).2.take 2 = ['s', '.']
           then (splitPathP (joinComps (init ++ [last]))).2.drop 2
           else (splitPathP (joinComps (init ++ [last]))).2) =
        joinComps (init ++ [last])
      rw [hr1, hr2, if_neg hs1, if_neg hs2]
      unfold joinPathP
      rw [if_neg (by rw [isabsP_eq_false_of_no_slash hlast.2.2]; simp)]
      rw [if_neg (not_or.mpr ⟨hane, halast⟩)]
      rw [hjoin]

/-- C9 counterexample: the target-path computation is not idempotent, and its
results can contain `SCCS` components and `..` components. `SCCS/SCCS/s.s.foo`
maps to `SCCS/s.foo` (an `SCCS` component survives because `_GottenName`
removes only the immediate parent directory, and one `s.` prefix survives
because only one is stripped); applying the computation again gives `foo`, a
different answer. `../SCCS/s.foo` maps to `../foo`: `normpath` keeps leading
`..` components of relative paths. -/
theorem targetPath_not_idempotent_counterexample :
    targetPath ("SCCS/SCCS/s.s.foo".toList) = .ok ("SCCS/s.foo".toList) ∧
    targetPath ("SCCS/s.foo".toList) = .ok ("foo".toList) ∧
    "SCCS/s.foo".toList ≠ "foo".toList ∧
    "SCCS".toList ∈ splitOnSlash ("SCCS/s.foo".toList) ∧
    targetPath ("../SCCS/s.foo".toList) = .ok ("../foo".toList) ∧
    "..".toList ∈ splitOnSlash ("../foo".toList) :=
  ⟨rfl, rfl, by decide, by decide, rfl, by decide⟩

/-- C9 (amended): absolute source paths are rejected with an error; every
accepted result is a relative path (it never begins with `/`); and the
computation is idempotent on every accepted result whose filename part does
not begin with `s.` and whose immediate parent directory is not exactly
`SCCS`. Unconditional idempotence, `..`-freedom and `SCCS`-freedom do not
hold. -/
theorem targetPath_amended (f r : List Char) :
    (isabsP f = true → targetPath f = .error "absolute path name") ∧
    (targetPath f = .ok r → isabsP r = false) ∧
    (targetPath f = .ok r →
      (splitPathP r).2.take 2 ≠ ['s', '.'] →
      (splitPathP (splitPathP r).1).2 ≠ ['S', 'C', 'C', 'S'] →
      targetPath r = .ok r) := by
  refine ⟨targetPath_error_of_abs, targetPath_ok_not_abs, ?_⟩
  intro h hc1 hc2
  have hnf : NFPath r := by
    unfold targetPath gitFriendlyName at h
    by_cases habs : isabsP (gottenName f) = true
    · rw [if_pos habs] at h
      cases h
    · rw [if_neg habs] at h
      cases h
      exact NFPath_normpathP (eq_false_of_ne_true habs)
  obtain ⟨habs2, hne2, hnorm⟩ := normpathP_NF_id hnf
  have hgot : gottenName r = r := gottenName_NF hnf hc1 hc2
  unfold targetPath gitFriendlyName
  rw [hgot, if_neg (by rw [habs2]; simp)]
  rw [show (splitdriveP r).2 = r from rfl, hnorm]

/-- Witness for the amended C9 theorem at concrete inputs. -/
theorem targetPath_amended_witness :
    targetPath ("/SCCS/s.foo".toList) = .error "absolute path name" ∧
    isabsP ("foo".toList) = false ∧
    targetPath ("foo".toList) = .ok ("foo".toList) :=
  ⟨(targetPath_amended ("/SCCS/s.foo".toList) []).1 rfl,
   (targetPath_amended ("SCCS/s.foo".toList) ("foo".toList)).2.1 rfl,
   (targetPath_amended ("SCCS/s.foo".toList) ("foo".toList)).2.2 rfl
     (by decide) (by decide)⟩

end GitSccsImport
